import Mathlib

/-!
Verification of the feature-engineering and scenario-inference pipeline of the
gcc-oil-forecast repository.

The development shallowly embeds the relevant Python code:

* `src/src/data/transforms.py` — `add_lag_features`, `add_rolling_features`
  (and the month-start resampling helpers used by the builder);
* `src/src/features/build_features.py` — the feature-matrix builder;
* `src/src/models/forecast.py` — `Forecaster._prepare_inputs` / `predict`;
* `src/api/main.py`, `src/api/schemas.py` — the `/predict` endpoint and its
  request validation.

Modelling conventions:

* A pandas `DataFrame` is a list of named columns (`DF`), each column a list of
  cells; a cell is `Option ℚ`, with `none` playing the role of `NaN`.  pandas
  float arithmetic is modelled by exact rational arithmetic.
* Dates are month-start timestamps; we represent a date by its month index
  (an integer, stored as a rational in a date cell).
* Column names are represented by the inductive type `ColName`.  The source
  builds derived-column names by string concatenation
  (`f"{col}_lag_{k}"`, `f"{col}_roll_{stat}_{window}"`); the constructors
  `ColName.lag` and `ColName.roll` model exactly those two formation rules.
  This is faithful for every name the pipeline actually builds: base-variable
  names produced by the loaders (`saudi_production`, `brent_price`,
  `renewables_*`, `world_*`) never contain the separator substrings
  `_lag_` / `_roll_`, so the string encoding of these trees is injective.
* `Series.rolling(w).std()` takes a floating-point square root, which has no
  exact rational counterpart; the development is therefore parametrised by the
  function `sf` used for the `std` statistic, and every theorem holds for an
  arbitrary such function.  All other statistics are modelled exactly.
-/

namespace OilForecast

/-- Rolling statistics supported by `add_rolling_features`
(`transforms.py` lines 83-90). -/
inductive Stat where
  | mean
  | std
  | min
  | max
deriving DecidableEq, Repr

/-- Column names of a feature frame.  `base s` is a raw variable column named
`s`; `lag c k` models the name `f"{c}_lag_{k}"` and `roll c s w` the name
`f"{c}_roll_{s}_{w}"` built by `transforms.py`. -/
inductive ColName where
  | date
  | base (s : String)
  | lag (c : ColName) (k : Nat)
  | roll (c : ColName) (s : Stat) (w : Nat)
deriving DecidableEq, Repr

/-- A cell of a frame: `none` models pandas `NaN`. -/
abbrev Cell := Option ℚ

/-- A column of a frame. -/
abbrev Col := List Cell

/-- A pandas DataFrame: ordered association list of named columns. -/
abbrev DF := List (ColName × Col)

/-- Look up a column by name (pandas `df[name]` when the name is present). -/
def getCol? : DF → ColName → Option Col
  | [], _ => none
  | p :: t, n => if p.1 = n then some p.2 else getCol? t n

/-- Column lookup with the empty column as default. -/
def getColD (df : DF) (n : ColName) : Col := (getCol? df n).getD []

/-- Does the frame have a column of this name (`name in df.columns`)? -/
def hasCol (df : DF) (n : ColName) : Bool := (getCol? df n).isSome

/-- Column assignment `df[name] = col`: overwrites in place when the name is
present (pandas keeps the column position), appends at the end otherwise. -/
def setCol : DF → ColName → Col → DF
  | [], n, c => [(n, c)]
  | p :: t, n, c => if p.1 = n then (n, c) :: t else p :: setCol t n c

/-- The ordered list of column names (`df.columns`). -/
def colsOf (df : DF) : List ColName := df.map Prod.fst

/-- Number of rows of the frame (all columns of a well-formed frame have the
same length; we read it off the first column). -/
def nrows : DF → Nat
  | [] => 0
  | p :: _ => p.2.length

/-- pandas `Series.shift(k)`: `k` leading `NaN`s, values pushed down, length
preserved. -/
def shiftCol (k : Nat) (c : Col) : Col :=
  (List.replicate k (none : Cell) ++ c).take c.length

/-- The trailing window of size `w` ending at row `i` (rows `i-w+1 .. i`). -/
def windowAt (c : Col) (w i : Nat) : List Cell := (c.take (i + 1)).drop (i + 1 - w)

/-- Extract the values of a run of cells when none of them is missing
(pandas applies a rolling statistic only when the window holds
`min_periods` non-missing observations). -/
def cellsSome? : List Cell → Option (List ℚ)
  | [] => some []
  | none :: _ => none
  | some a :: t => (cellsSome? t).map (fun vs => a :: vs)

/-- One cell of `Series.rolling(w).agg(f)` with the default
`min_periods = w`: defined only when the trailing window has `w` rows, all
non-missing. -/
def rollCell (f : List ℚ → ℚ) (w : Nat) (c : Col) (i : Nat) : Cell :=
  if i + 1 < w then none
  else
    match cellsSome? (windowAt c w i) with
    | some vs => some (f vs)
    | none => none

/-- pandas `Series.rolling(w)` followed by an aggregation `f`. -/
def rollingApply (f : List ℚ → ℚ) (w : Nat) (c : Col) : Col :=
  (List.range c.length).map (rollCell f w c)

/-- Arithmetic mean (pandas `rolling.mean`). -/
def meanQ (xs : List ℚ) : ℚ := xs.sum / xs.length

/-- Minimum of a value list (pandas `rolling.min`; only applied to nonempty
windows). -/
def minQ : List ℚ → ℚ
  | [] => 0
  | x :: t => t.foldl (fun a b => if b < a then b else a) x

/-- Maximum of a value list (pandas `rolling.max`). -/
def maxQ : List ℚ → ℚ
  | [] => 0
  | x :: t => t.foldl (fun a b => if a < b then b else a) x

/-- Statistic dispatch of `add_rolling_features` (`transforms.py` lines
83-90).  `sf` is the abstract sample-standard-deviation function (see the
module docstring); the `else: raise ValueError` branch of the source is
unreachable because `Stat` enumerates exactly the supported names. -/
def statFn (sf : List ℚ → ℚ) : Stat → (List ℚ → ℚ)
  | .mean => meanQ
  | .std => sf
  | .min => minQ
  | .max => maxQ

/-- `transforms.add_lag_features(df, value_col, lags)`
(`transforms.py` lines 44-59):
`for lag in lags: df[f"{value_col}_lag_{lag}"] = df[value_col].shift(lag)`.
The returned frame; the in-place nature of the assignments is modelled by
`add_lag_features_call` below. -/
def add_lag_features (df : DF) (v : ColName) (lags : List Nat) : DF :=
  lags.foldl (fun d k => setCol d (.lag v k) (shiftCol k (getColD d v))) df

/-- Inner loop of `add_rolling_features` for a fixed window
(`for stat in stats: ...` in `transforms.py` lines 80-92). -/
def roll_one (sf : List ℚ → ℚ) (df : DF) (v : ColName) (w : Nat) (stats : List Stat) : DF :=
  stats.foldl
    (fun d s => setCol d (.roll v s w) (rollingApply (statFn sf s) w (getColD d v)))
    df

/-- `transforms.add_rolling_features(df, value_col, windows, stats)`
(`transforms.py` lines 62-93): for each window and stat, assigns
`df[f"{value_col}_roll_{stat}_{window}"]` the rolling statistic. -/
def add_rolling_features (sf : List ℚ → ℚ) (df : DF) (v : ColName)
    (windows : List Nat) (stats : List Stat) : DF :=
  windows.foldl (fun d w => roll_one sf d v w stats) df

/-- The source `add_lag_features` writes its new columns with
`df[...] = ...` on the argument itself (there is no `df.copy()`), and then
returns that same object.  We model the call as the pair
(state of the caller's frame after the call, returned frame); both components
are the updated frame because the function mutates its argument in place. -/
def add_lag_features_call (df : DF) (v : ColName) (lags : List Nat) : DF × DF :=
  (add_lag_features df v lags, add_lag_features df v lags)

/-! ### Sorting, concatenation, row selection -/

/-- Stable insertion used by `sortBy`: the new element goes after every
element that does not strictly exceed it, so equal keys keep their original
relative order. -/
def insertBy {α : Type} (le : α → α → Bool) (x : α) : List α → List α
  | [] => [x]
  | y :: t => if le y x then y :: insertBy le x t else x :: y :: t

/-- Stable sort used to model `DataFrame.sort_values` (the tie order of a
pandas quicksort is unspecified; all theorems below either avoid ties or do
not depend on tie order). -/
def sortBy {α : Type} (le : α → α → Bool) (l : List α) : List α :=
  l.foldl (fun acc x => insertBy le x acc) []

/-- Comparison on date cells; pandas sorts missing dates last. -/
def cellLeQ : Cell → Cell → Bool
  | some a, some b => decide (a ≤ b)
  | some _, none => true
  | none, some _ => false
  | none, none => true

/-- Reindex a column by a list of row indices. -/
def applyIdx (c : Col) (idx : List Nat) : Col := idx.map (fun i => c.getD i none)

/-- `df.sort_values("date")`: reorder all columns by the stable sort of the
row indices keyed on the date cell. -/
def sortByDate (df : DF) : DF :=
  df.map (fun p => (p.1, applyIdx p.2
    (sortBy (fun i j => cellLeQ ((getColD df .date).getD i none)
      ((getColD df .date).getD j none)) (List.range (nrows df)))))

/-- `pd.concat([a, b], ignore_index=True)` for frames with equal column sets
(the case in `_prepare_inputs`, where `df_pred` is built from copies of a row
of `base_df`). -/
def concatDF (a b : DF) : DF := a.map (fun p => (p.1, p.2 ++ getColD b p.1))

/-- Indices of the rows kept by `df.dropna()` (rows with no missing cell in
any column). -/
def keepRowIdx (df : DF) : List Nat :=
  (List.range (nrows df)).filter (fun i => df.all (fun p => (p.2.getD i none).isSome))

/-- `df.dropna()`. -/
def dropna (df : DF) : DF := df.map (fun p => (p.1, applyIdx p.2 (keepRowIdx df)))

/-- Indices of the rows selected by `combined["date"].isin(dates)`. -/
def selIdx (df : DF) (ds : List ℚ) : List Nat :=
  (List.range (nrows df)).filter
    (fun i => ds.any (fun q => (getColD df .date).getD i none == some q))

/-- `combined[combined["date"].isin(dates)]`: select, in frame order, the
rows whose date cell is a member of the requested date list. -/
def filterDates (df : DF) (ds : List ℚ) : DF :=
  df.map (fun p => (p.1, applyIdx p.2 (selIdx df ds)))

/-! ### The scenario-inference preparer (`forecast.py`) -/

/-- A scenario mapping: association list from variable name to the list of
override values (a Python dict, iterated in insertion order; keys are
unique). -/
abbrev Scenario := List (ColName × List ℚ)

/-- Dict lookup in a scenario. -/
def scLookup (sc : Scenario) (n : ColName) : Option (List ℚ) :=
  (sc.find? (fun p => p.1 == n)).map Prod.snd

/-- Row `i` of a frame, as a function from column name to cell. -/
def rowAt (df : DF) (i : Nat) : ColName → Cell := fun n => (getColD df n).getD i none

/-- The template row `base_df.iloc[-1]` (forecast.py line 82). -/
def lastRow (df : DF) : ColName → Cell := rowAt df (nrows df - 1)

/-- One synthesized row (forecast.py lines 84-91): copy the template, set
`date` to the requested date, then for each scenario entry `(var, values)`
overwrite `row[var]` with `values[idx]` when `idx < len(values)` and `var` is
among the frame's columns (`var in row.index`). -/
def synthRow (template : ColName → Cell) (cols : List ColName) (sc : Scenario)
    (idx : Nat) (d : ℚ) : ColName → Cell :=
  sc.foldl
    (fun r p =>
      if idx < p.2.length ∧ p.1 ∈ cols then
        fun n => if n = p.1 then some (p.2.getD idx 0) else r n
      else r)
    (fun n => if n = ColName.date then some d else template n)

/-- `df_pred = pd.DataFrame(rows)` (forecast.py line 92): one synthesized row
per requested date, with the columns of `base_df`. -/
def dfPred (base : DF) (dates : List ℚ) (sc : Scenario) : DF :=
  base.map (fun p =>
    (p.1, (List.range dates.length).map
      (fun idx => synthRow (lastRow base) (colsOf base) sc idx (dates.getD idx 0) p.1)))

/-- The target column `saudi_production` (forecast.py line 97). -/
def targetCol : ColName := ColName.base "saudi_production"

/-- The lag list `[1, 2, 3, 6, 12]` (builder line 184, forecast line 100). -/
def lagsList : List Nat := [1, 2, 3, 6, 12]

/-- The window list `[3, 6, 12]` (builder line 185, forecast line 101). -/
def windowsList : List Nat := [3, 6, 12]

/-- The default stats of `add_rolling_features` (`stats=None` becomes
`["mean", "std"]`). -/
def defaultStats : List Stat := [Stat.mean, Stat.std]

/-- One iteration of the derive loops of builder and preparer:
`df = add_lag_features(df, col, lags=[1,2,3,6,12])` then
`df = add_rolling_features(df, col, windows=[3,6,12])`. -/
def stepVar (sf : List ℚ → ℚ) (df : DF) (c : ColName) : DF :=
  add_rolling_features sf (add_lag_features df c lagsList) c windowsList defaultStats

/-- The derive loop `for col in [target_col] + cols: ...` (builder lines
183-185, forecast lines 99-101). -/
def deriveAll (sf : List ℚ → ℚ) (df : DF) (l : List ColName) : DF :=
  l.foldl (stepVar sf) df

/-- The root variable of a (possibly derived) column name; on the pipeline's
names this models the string test `c.startswith(target_col)` of forecast.py
line 111. -/
def rootOf : ColName → ColName
  | .lag c _ => rootOf c
  | .roll c _ _ => rootOf c
  | c => c

/-- The combined frame of `_prepare_inputs` (forecast.py lines 80-95):
sort the loaded history, synthesize one row per requested date, concatenate,
sort by date again. -/
def combinedOf (file : DF) (dates : List ℚ) (sc : Scenario) : DF :=
  sortByDate (concatDF (sortByDate file) (dfPred (sortByDate file) dates sc))

/-- The loop column list of `_prepare_inputs` (lines 97-99):
`[target_col] + [c for c in base_df.columns if c not in {"date", target_col}]`.
`base_df` is the persisted feature matrix, so this list also contains the
persisted derived columns. -/
def inferLoopCols (file : DF) : List ColName :=
  targetCol :: (colsOf file).filter (fun c => !(c == ColName.date || c == targetCol))

/-- The prediction rows of `_prepare_inputs` (lines 100-105): recompute all
lag/rolling features over the combined frame, drop rows with missing values,
select the rows whose date is in the requested list. -/
def predRowsOf (sf : List ℚ → ℚ) (file : DF) (dates : List ℚ) (sc : Scenario) : DF :=
  filterDates (dropna (deriveAll sf (combinedOf file dates sc) (inferLoopCols file))) dates

/-- The projection of lines 107-112: the model signature's column order when
known, otherwise drop `date`, the target, and every column whose name starts
with the target name. -/
def projectX (fc : Option (List ColName)) (pred : DF) : DF :=
  match fc with
  | some cs => cs.map (fun c => (c, getColD pred c))
  | none =>
    pred.filter (fun p =>
      !(p.1 == ColName.date || p.1 == targetCol || rootOf p.1 == targetCol))

/-- `Forecaster._prepare_inputs` (forecast.py lines 69-113). -/
def prepare_inputs (sf : List ℚ → ℚ) (file : DF) (dates : List ℚ) (sc : Scenario)
    (fc : Option (List ColName)) : DF :=
  projectX fc (predRowsOf sf file dates sc)

/-- `Forecaster.predict` (forecast.py lines 115-134): prepare the inputs and
apply the loaded model row-wise (`self.model.predict(X_pred)` returns one
prediction per row of `X_pred`, in row order).  The model is an abstract
function from a feature row to a value. -/
def forecaster_predict (sf : List ℚ → ℚ) (model : List Cell → ℚ) (file : DF)
    (dates : List ℚ) (sc : Scenario) (fc : Option (List ColName)) : List ℚ :=
  let X := prepare_inputs sf file dates sc fc
  (List.range (nrows X)).map (fun i => model (X.map (fun p => p.2.getD i none)))

/-- Is this a raw (non-derived) column: `date` or a base variable? -/
def isBaseDate : ColName → Bool
  | .date => true
  | .base _ => true
  | _ => false

/-- The restriction of a frame to its base columns (`date` and the raw
variables), i.e. the combined base-column sequence of claim C1. -/
def baseOnly (df : DF) : DF := df.filter (fun p => isBaseDate p.1)

/-- Is this a column the persisted feature matrix can contain: `date`, a base
variable, or a first-order derived column of a base variable? -/
def colOrd1 : ColName → Bool
  | .date => true
  | .base _ => true
  | .lag (.base _) _ => true
  | .roll (.base _) _ _ => true
  | _ => false

/-- An upper bound on the index of the last possibly-missing cell of a
column of the recomputed combined frame: base columns are fully populated,
first-order derived columns miss at most their first 12 rows, and the
second-order columns created by the preparer's loop over stale derived names
miss at most their first 24 rows. -/
def tierOf : ColName → Nat
  | .date => 0
  | .base _ => 0
  | .lag (.base _) _ => 12
  | .roll (.base _) _ _ => 12
  | _ => 24

/-- All cells of the column from row `t` on are non-missing. -/
def someFrom (t : Nat) (c : Col) : Prop :=
  ∀ i, t ≤ i → i < c.length → (c.getD i none).isSome

/-- Invariant maintained by the preparer's derive loop: every column has `N`
rows and is non-missing from its tier on. -/
def InvP (N : Nat) (df : DF) : Prop :=
  ∀ p ∈ df, p.2.length = N ∧ someFrom (tierOf p.1) p.2

/-- The builder's feature-generation step (build_features.py lines 179-185)
applied to a base-column frame: `exogenous = [c for c in df.columns if c not
in {"date", target_col}]`, then the derive loop over `[target_col] +
exogenous`. -/
def builderDerive (sf : List ℚ → ℚ) (df : DF) : DF :=
  deriveAll sf df
    (targetCol :: (colsOf df).filter (fun c => !(c == ColName.date || c == targetCol)))

/-! ### The feature-matrix builder (`build_features.py`)

The builder's inputs are modelled at the point where each source has been
loaded and cleaned: dates are month indices (ℤ), the Saudi series is the
two-column `(date, saudi_production)` frame handed to the resampling step,
and the multi-entity sources are `(date, values)` rows.  The upstream loader
and cleaning steps only select and rename columns and are outside the claims
under verification. -/

/-- A row of a two-column `(date, value)` series. -/
abbrev SRow := ℤ × Cell

/-- A row of a multi-column `(date, values)` frame. -/
abbrev MRow := ℤ × List Cell

/-- `df.drop_duplicates(subset="date")` (prepare_saudi_production line 101),
keeping the first row of each date. -/
def dedupDates (rows : List SRow) : List SRow :=
  rows.foldl (fun acc r => if acc.any (fun q => q.1 == r.1) then acc else acc ++ [r]) []

/-- Keep the better of `best` and `r` as "last observation at or before `m`";
on equal dates the earlier row wins (dates are unique after dedup). -/
def betterObs (m : ℤ) (best : Option SRow) (r : SRow) : Option SRow :=
  if r.1 ≤ m then
    match best with
    | none => some r
    | some b => if b.1 < r.1 then some r else some b
  else best

/-- The forward-fill value at month `m`. -/
def lastObsLE (rows : List SRow) (m : ℤ) : Cell :=
  match rows.foldl (betterObs m) none with
  | some b => b.2
  | none => none

/-- Smallest observed month. -/
def monthLo (rows : List SRow) : ℤ :=
  rows.foldl (fun a r => if r.1 < a then r.1 else a) (rows.headD (0, none)).1

/-- Largest observed month. -/
def monthHi (rows : List SRow) : ℤ :=
  rows.foldl (fun a r => if a < r.1 then r.1 else a) (rows.headD (0, none)).1

/-- `resample_to_month_start(..., how="ffill")` (transforms.py lines 33-35)
on a month-indexed series: one row per calendar month of the observed span,
filled forward from the last observation at or before it. -/
def resampleFfill (rows : List SRow) : List SRow :=
  if rows.isEmpty then []
  else
    (List.range ((monthHi rows - monthLo rows).toNat + 1)).map
      (fun j : Nat => (monthLo rows + (j:ℤ), lastObsLE rows (monthLo rows + (j:ℤ))))

/-- `resample_to_month_start(..., how="mean")` (transforms.py line 38): bin
mean over the non-missing observations of each month, `NaN` for empty
months. -/
def resampleMean (rows : List SRow) : List SRow :=
  if rows.isEmpty then []
  else
    (List.range ((monthHi rows - monthLo rows).toNat + 1)).map
      (fun j : Nat =>
        (monthLo rows + (j:ℤ),
          if ((rows.filter (fun r => r.1 == monthLo rows + (j:ℤ))).filterMap Prod.snd).isEmpty
          then none
          else some (((rows.filter (fun r => r.1 == monthLo rows + (j:ℤ))).filterMap Prod.snd).sum
            / ((rows.filter (fun r => r.1 == monthLo rows + (j:ℤ))).filterMap Prod.snd).length)))

/-- Adjacent deduplication of a sorted key list. -/
def dedupAdj : List ℤ → List ℤ
  | [] => []
  | [x] => [x]
  | x :: y :: t => if x == y then dedupAdj (y :: t) else x :: dedupAdj (y :: t)

/-- Sorted distinct keys (pandas `groupby` sorts its keys ascending). -/
def dedupSortInt (l : List ℤ) : List ℤ := dedupAdj (sortBy (fun a b => decide (a ≤ b)) l)

/-- `df.groupby("date")[numeric].sum()` of the aggregation helpers
(build_features.py lines 41-48 and 58-65): one row per distinct date in
ascending order, each slot summed with missing values skipped (empty sums
give 0). -/
def groupSum (width : Nat) (rows : List MRow) : List MRow :=
  (dedupSortInt (rows.map Prod.fst)).map
    (fun d =>
      (d, (List.range width).map
        (fun j => some (rows.foldl
          (fun acc r => if r.1 == d then acc + ((r.2.getD j none).getD 0) else acc) 0))))

/-- `left.merge(right, on="date", how="left")`: every left row is paired with
each matching right row in order, or padded with missing cells when there is
no match; `rw` is the right frame's value width. -/
def mergeRows (l r : List MRow) (rw : Nat) : List MRow :=
  l.flatMap (fun a =>
    match r.filter (fun b => b.1 == a.1) with
    | [] => [(a.1, a.2 ++ List.replicate rw (none : Cell))]
    | ms => ms.map (fun b => (a.1, a.2 ++ b.2)))

/-- The value columns of `rowsToDF`: the `j`-th name is bound to the `j`-th
slot of every row. -/
def colsFrom (j : Nat) : List ColName → List MRow → DF
  | [], _ => []
  | n :: ns, rows => (n, rows.map (fun r => r.2.getD j none)) :: colsFrom (j + 1) ns rows

/-- Column-major frame from merged rows: `date` first, then one column per
name with the values of the corresponding slot. -/
def rowsToDF (names : List ColName) (rows : List MRow) : DF :=
  (ColName.date, rows.map (fun r => (some ((r.1 : ℚ)) : Cell))) :: colsFrom 0 names rows

/-- Forward fill of one column, carrying the last non-missing value. -/
def ffillGo : Cell → List Cell → List Cell
  | _, [] => []
  | last, c :: t =>
    match c with
    | none => last :: ffillGo last t
    | some v => some v :: ffillGo (some v) t

/-- Forward fill of one column (`df.ffill()` applies this columnwise,
build_features.py line 176). -/
def ffillCol (c : Col) : Col := ffillGo none c

/-- `df.ffill()`. -/
def ffillDF (df : DF) : DF := df.map (fun p => (p.1, ffillCol p.2))

/-- `df.sort_values("date")` on the merged row list (build_features.py line
172). -/
def sortRows (rows : List MRow) : List MRow := sortBy (fun a b => decide (a.1 ≤ b.1)) rows

/-- The warning logged when the Brent source cannot be used
(build_features.py line 163). -/
def brentWarning (e : String) : String :=
  "Could not load Brent data: " ++ e ++ ". Using placeholder zeros."

/-- `build_features` (build_features.py lines 130-196): resample the Saudi
series, attempt the Brent source — substituting a zero placeholder on the
Saudi date grid and logging a warning when loading or preparing it fails —
aggregate the multi-entity sources, left-merge everything onto the Saudi
grid, sort, forward fill, derive lag/rolling features, and drop incomplete
rows.  Returns the persisted frame together with the warning log. -/
def build_features (sf : List ℚ → ℚ) (sd : List SRow)
    (brentRaw : Except String (List SRow)) (renewRaw worldRaw : List MRow)
    (rNames wNames : List ColName) : DF × List String :=
  let saudi := resampleFfill (dedupDates sd)
  let brentLog : List SRow × List String :=
    match brentRaw with
    | .ok b => (resampleMean b, [])
    | .error e => (saudi.map (fun p => (p.1, some 0)), [brentWarning e])
  let renew := groupSum rNames.length renewRaw
  let world := groupSum wNames.length worldRaw
  let m1 := mergeRows (saudi.map (fun p => (p.1, [p.2])))
    (brentLog.1.map (fun p => (p.1, [p.2]))) 1
  let m2 := mergeRows m1 renew rNames.length
  let m3 := mergeRows m2 world wNames.length
  let sorted := sortRows m3
  let names := ColName.base "saudi_production" :: ColName.base "brent_price"
    :: (rNames ++ wNames)
  let df0 := rowsToDF names sorted
  let df1 := ffillDF df0
  let df2 := builderDerive sf df1
  (dropna df2, brentLog.2)

/-- A concrete 13-row history used to refute claim C2: columns `date`,
`saudi_production`, `brent_price`, all fully populated, dates 0..12. -/
def histC2cx : DF :=
  [(ColName.date, [some (0:ℚ), some (1:ℚ), some (2:ℚ), some (3:ℚ), some (4:ℚ), some (5:ℚ), some (6:ℚ), some (7:ℚ), some (8:ℚ), some (9:ℚ), some (10:ℚ), some (11:ℚ), some (12:ℚ)]),
   (ColName.base "saudi_production", [some (0:ℚ), some (1:ℚ), some (2:ℚ), some (3:ℚ), some (4:ℚ), some (5:ℚ), some (6:ℚ), some (7:ℚ), some (8:ℚ), some (9:ℚ), some (10:ℚ), some (11:ℚ), some (12:ℚ)]),
   (ColName.base "brent_price", [some (0:ℚ), some (1:ℚ), some (2:ℚ), some (3:ℚ), some (4:ℚ), some (5:ℚ), some (6:ℚ), some (7:ℚ), some (8:ℚ), some (9:ℚ), some (10:ℚ), some (11:ℚ), some (12:ℚ)])]

/-- A concrete 24-row history used as witness data for the amended claim
C2. -/
def histC2wit : DF :=
  [(ColName.date, [some (0:ℚ), some (1:ℚ), some (2:ℚ), some (3:ℚ), some (4:ℚ), some (5:ℚ), some (6:ℚ), some (7:ℚ), some (8:ℚ), some (9:ℚ), some (10:ℚ), some (11:ℚ), some (12:ℚ), some (13:ℚ), some (14:ℚ), some (15:ℚ), some (16:ℚ), some (17:ℚ), some (18:ℚ), some (19:ℚ), some (20:ℚ), some (21:ℚ), some (22:ℚ), some (23:ℚ)]),
   (ColName.base "saudi_production", [some (0:ℚ), some (1:ℚ), some (2:ℚ), some (3:ℚ), some (4:ℚ), some (5:ℚ), some (6:ℚ), some (7:ℚ), some (8:ℚ), some (9:ℚ), some (10:ℚ), some (11:ℚ), some (12:ℚ), some (13:ℚ), some (14:ℚ), some (15:ℚ), some (16:ℚ), some (17:ℚ), some (18:ℚ), some (19:ℚ), some (20:ℚ), some (21:ℚ), some (22:ℚ), some (23:ℚ)]),
   (ColName.base "brent_price", [some (0:ℚ), some (1:ℚ), some (2:ℚ), some (3:ℚ), some (4:ℚ), some (5:ℚ), some (6:ℚ), some (7:ℚ), some (8:ℚ), some (9:ℚ), some (10:ℚ), some (11:ℚ), some (12:ℚ), some (13:ℚ), some (14:ℚ), some (15:ℚ), some (16:ℚ), some (17:ℚ), some (18:ℚ), some (19:ℚ), some (20:ℚ), some (21:ℚ), some (22:ℚ), some (23:ℚ)])]

/-! ### The `/predict` endpoint (`api/main.py`, `api/schemas.py`) -/

/-- HTTP responses of the embedded endpoint. -/
inductive ApiResp where
  | ok (preds : List ℚ)
  | err (status : Nat) (detail : String)
deriving DecidableEq, Repr

/-- A response with a 4xx (client error) status. -/
def isClientError : ApiResp → Prop
  | .err s _ => 400 ≤ s ∧ s < 500
  | .ok _ => False

/-- The body of a `/predict` request after JSON parsing (schemas.py lines
9-18); date strings are modelled after `fromisoformat` parsing. -/
structure PredictReq where
  dates : List ℚ
  scenario : Scenario

/-- Pydantic validation of `PredictRequest`: the `dates` field carries
`Field(..., min_length=1)`. -/
def validPredictReq (r : PredictReq) : Bool := decide (1 ≤ r.dates.length)

/-- The `/predict` endpoint (api/main.py lines 47-64).  FastAPI validates the
body against `PredictRequest` before the handler runs, answering 422 on
failure; inside the handler every raised exception — including the
`HTTPException(400)` empty-dates guard, which the blanket `except Exception`
would also catch — surfaces as a 500 response.  `loadRes` is the
model-registry lookup outcome (`none` models the `RuntimeError` raised when
no model is registered for the horizon).  The second component records
whether a `Forecaster(...)` model load was attempted. -/
def predictEndpoint (sf : List ℚ → ℚ)
    (loadRes : Option ((List Cell → ℚ) × Option (List ColName)))
    (file : DF) (r : PredictReq) : ApiResp × Bool :=
  if !validPredictReq r then
    (.err 422 "dates: List should have at least 1 item after validation", false)
  else if r.dates.isEmpty then
    (.err 500 "At least one date must be provided.", false)
  else
    match loadRes with
    | none => (.err 500 "No model found for horizon 1 in stage Production", true)
    | some mf =>
      (.ok (forecaster_predict sf mf.1 file r.dates r.scenario mf.2), true)

/-! ### Elementary list lemmas -/

theorem getD_take_of_lt {α : Type} (l : List α) (n i : Nat) (d : α) (h : i < n) :
    (l.take n).getD i d = l.getD i d := by
  induction l generalizing n i with
  | nil => simp
  | cons x t ih =>
    cases n with
    | zero => omega
    | succ n =>
      cases i with
      | zero => simp
      | succ i =>
        rw [List.take_succ_cons, List.getD_cons_succ, List.getD_cons_succ]
        exact ih n i (by omega)

theorem getD_replicate_self {α : Type} (k i : Nat) (d : α) :
    (List.replicate k d).getD i d = d := by
  induction k generalizing i with
  | zero => simp
  | succ k ih =>
    cases i with
    | zero => simp [List.replicate_succ]
    | succ i => simp [List.replicate_succ, ih i]

theorem getD_drop {α : Type} (l : List α) (n i : Nat) (d : α) :
    (l.drop n).getD i d = l.getD (n + i) d := by
  induction l generalizing n with
  | nil => simp
  | cons x t ih =>
    cases n with
    | zero => simp
    | succ n =>
      rw [List.drop_succ_cons]
      have hn : n + 1 + i = (n + i) + 1 := by omega
      rw [hn, List.getD_cons_succ]
      exact ih n

/-! ### ColName facts -/

theorem lag_ne_self (c : ColName) (k : Nat) : ColName.lag c k ≠ c := by
  intro h
  have h2 := congrArg sizeOf h
  simp at h2
  omega

theorem roll_ne_self (c : ColName) (s : Stat) (w : Nat) : ColName.roll c s w ≠ c := by
  intro h
  have h2 := congrArg sizeOf h
  simp at h2
  omega

/-! ### Column lookup and assignment -/

theorem getCol?_mem {df : DF} {n : ColName} {c : Col} (h : getCol? df n = some c) :
    (n, c) ∈ df := by
  induction df with
  | nil => simp [getCol?] at h
  | cons p t ih =>
    by_cases hp : p.1 = n
    · simp only [getCol?, if_pos hp] at h
      obtain ⟨a, b⟩ := p
      injection h with hbc
      subst hbc
      subst hp
      exact List.mem_cons_self _ _
    · simp only [getCol?, if_neg hp] at h
      exact List.mem_cons_of_mem _ (ih h)

theorem getCol?_setCol_self (df : DF) (n : ColName) (c : Col) :
    getCol? (setCol df n c) n = some c := by
  induction df with
  | nil => simp [setCol, getCol?]
  | cons p t ih =>
    by_cases h : p.1 = n
    · simp [setCol, h, getCol?]
    · simp [setCol, h, getCol?, ih]

theorem getCol?_setCol_ne (df : DF) {n m : ColName} (c : Col) (h : m ≠ n) :
    getCol? (setCol df n c) m = getCol? df m := by
  induction df with
  | nil =>
    simp only [setCol, getCol?]
    rw [if_neg (fun hh : n = m => h hh.symm)]
  | cons p t ih =>
    by_cases hp : p.1 = n
    · simp only [setCol, if_pos hp, getCol?]
      rw [if_neg (fun hh : n = m => h hh.symm), if_neg (by rw [hp]; exact fun hh => h hh.symm)]
    · simp only [setCol, if_neg hp, getCol?]
      by_cases hm : p.1 = m
      · rw [if_pos hm, if_pos hm]
      · rw [if_neg hm, if_neg hm, ih]

theorem getColD_setCol_self (df : DF) (n : ColName) (c : Col) :
    getColD (setCol df n c) n = c := by
  simp [getColD, getCol?_setCol_self]

theorem getColD_setCol_ne (df : DF) {n m : ColName} (c : Col) (h : m ≠ n) :
    getColD (setCol df n c) m = getColD df m := by
  simp [getColD, getCol?_setCol_ne df c h]

theorem mem_setCol {df : DF} {n : ColName} {c : Col} {q : ColName × Col}
    (h : q ∈ setCol df n c) : q = (n, c) ∨ q ∈ df := by
  induction df with
  | nil => simpa [setCol] using h
  | cons p t ih =>
    by_cases hp : p.1 = n
    · simp only [setCol, if_pos hp] at h
      rcases List.mem_cons.mp h with h1 | h1
      · exact Or.inl h1
      · exact Or.inr (List.mem_cons_of_mem _ h1)
    · simp only [setCol, if_neg hp] at h
      rcases List.mem_cons.mp h with h1 | h1
      · exact Or.inr (h1 ▸ List.mem_cons_self _ _)
      · rcases ih h1 with h2 | h2
        · exact Or.inl h2
        · exact Or.inr (List.mem_cons_of_mem _ h2)

theorem hasCol_setCol_self (df : DF) (n : ColName) (c : Col) :
    hasCol (setCol df n c) n = true := by
  simp [hasCol, getCol?_setCol_self]

theorem hasCol_setCol_ne (df : DF) {n m : ColName} (c : Col) (h : m ≠ n) :
    hasCol (setCol df n c) m = hasCol df m := by
  simp [hasCol, getCol?_setCol_ne df c h]

theorem colsOf_setCol (df : DF) (n : ColName) (c : Col) :
    ∃ extra, colsOf (setCol df n c) = colsOf df ++ extra ∧ (extra = [] ∨ extra = [n]) := by
  induction df with
  | nil => exact ⟨[n], by simp [setCol, colsOf], Or.inr rfl⟩
  | cons p t ih =>
    by_cases hp : p.1 = n
    · exact ⟨[], by simp [setCol, hp, colsOf], Or.inl rfl⟩
    · obtain ⟨extra, he, hor⟩ := ih
      exact ⟨extra, by simp [setCol, hp, colsOf] at he ⊢; exact he, hor⟩

/-! ### shift and rolling characterisations -/

theorem shiftCol_length (k : Nat) (c : Col) : (shiftCol k c).length = c.length := by
  simp [shiftCol]

theorem shiftCol_getD (k : Nat) (c : Col) (i : Nat) (hi : i < c.length) :
    (shiftCol k c).getD i none = if i < k then none else c.getD (i - k) none := by
  unfold shiftCol
  rw [getD_take_of_lt _ _ _ _ hi]
  by_cases h : i < k
  · rw [if_pos h, List.getD_append _ _ _ _ (by simpa using h), getD_replicate_self]
  · rw [if_neg h, List.getD_append_right _ _ _ _ (by simpa using Nat.le_of_not_lt h)]
    simp

theorem rollingApply_length (f : List ℚ → ℚ) (w : Nat) (c : Col) :
    (rollingApply f w c).length = c.length := by
  simp [rollingApply]

theorem rollingApply_getD (f : List ℚ → ℚ) (w : Nat) (c : Col) (i : Nat)
    (hi : i < c.length) :
    (rollingApply f w c).getD i none = rollCell f w c i := by
  rw [rollingApply, List.getD_eq_getElem _ _ (by simpa using hi)]
  simp

theorem windowAt_length (c : Col) (w i : Nat) (hw : w ≤ i + 1) (hi : i < c.length) :
    (windowAt c w i).length = w := by
  simp [windowAt]
  omega

theorem windowAt_getD (c : Col) (w i j : Nat) (hw : w ≤ i + 1) (hj : j < w) :
    (windowAt c w i).getD j none = c.getD (i + 1 - w + j) none := by
  rw [windowAt, getD_drop, getD_take_of_lt _ _ _ _ (by omega)]

/-! ### Behaviour of `add_lag_features` -/

theorem add_lag_features_nil (df : DF) (v : ColName) : add_lag_features df v [] = df := rfl

theorem add_lag_features_cons (df : DF) (v : ColName) (k : Nat) (t : List Nat) :
    add_lag_features df v (k :: t)
      = add_lag_features (setCol df (.lag v k) (shiftCol k (getColD df v))) v t := rfl

theorem getColD_add_lag_of_ne (df : DF) (v : ColName) (lags : List Nat) {m : ColName}
    (hm : ∀ k ∈ lags, m ≠ ColName.lag v k) :
    getColD (add_lag_features df v lags) m = getColD df m := by
  induction lags generalizing df with
  | nil => rfl
  | cons k t ih =>
    rw [add_lag_features_cons, ih _ (fun j hj => hm j (List.mem_cons_of_mem _ hj)),
      getColD_setCol_ne _ _ (hm k (List.mem_cons_self _ _))]

theorem getColD_add_lag_v (df : DF) (v : ColName) (lags : List Nat) :
    getColD (add_lag_features df v lags) v = getColD df v :=
  getColD_add_lag_of_ne df v lags (fun k _ => (lag_ne_self v k).symm)

theorem getColD_add_lag_self (df : DF) (v : ColName) (lags : List Nat) (k : Nat)
    (hk : k ∈ lags) :
    getColD (add_lag_features df v lags) (.lag v k) = shiftCol k (getColD df v) := by
  induction lags generalizing df with
  | nil => cases hk
  | cons k0 t ih =>
    rw [add_lag_features_cons]
    by_cases hkt : k ∈ t
    · rw [ih _ hkt, getColD_setCol_ne _ _ (Ne.symm (lag_ne_self v k0))]
    · have hk0 : k = k0 := by
        rcases List.mem_cons.mp hk with h | h
        · exact h
        · exact absurd h hkt
      subst hk0
      rw [getColD_add_lag_of_ne _ _ _ (fun j hj => by
        simp only [ne_eq, ColName.lag.injEq, not_and]
        intro _ hkj
        exact hkt (hkj ▸ hj)), getColD_setCol_self]

/-! ### Behaviour of `add_rolling_features` -/

theorem roll_one_nil (sf : List ℚ → ℚ) (df : DF) (v : ColName) (w : Nat) :
    roll_one sf df v w [] = df := rfl

theorem roll_one_cons (sf : List ℚ → ℚ) (df : DF) (v : ColName) (w : Nat) (s : Stat)
    (t : List Stat) :
    roll_one sf df v w (s :: t)
      = roll_one sf (setCol df (.roll v s w) (rollingApply (statFn sf s) w (getColD df v)))
        v w t := rfl

theorem getColD_roll_one_of_ne (sf : List ℚ → ℚ) (df : DF) (v : ColName) (w : Nat)
    (stats : List Stat) {m : ColName} (hm : ∀ s ∈ stats, m ≠ ColName.roll v s w) :
    getColD (roll_one sf df v w stats) m = getColD df m := by
  induction stats generalizing df with
  | nil => rfl
  | cons s t ih =>
    rw [roll_one_cons, ih _ (fun j hj => hm j (List.mem_cons_of_mem _ hj)),
      getColD_setCol_ne _ _ (hm s (List.mem_cons_self _ _))]

theorem getColD_roll_one_v (sf : List ℚ → ℚ) (df : DF) (v : ColName) (w : Nat)
    (stats : List Stat) :
    getColD (roll_one sf df v w stats) v = getColD df v :=
  getColD_roll_one_of_ne sf df v w stats (fun s _ => (roll_ne_self v s w).symm)

theorem getColD_roll_one_self (sf : List ℚ → ℚ) (df : DF) (v : ColName) (w : Nat)
    (stats : List Stat) (s : Stat) (hs : s ∈ stats) :
    getColD (roll_one sf df v w stats) (.roll v s w)
      = rollingApply (statFn sf s) w (getColD df v) := by
  induction stats generalizing df with
  | nil => cases hs
  | cons s0 t ih =>
    rw [roll_one_cons]
    by_cases hst : s ∈ t
    · rw [ih _ hst, getColD_setCol_ne _ _ (roll_ne_self v s0 w).symm]
    · have hs0 : s = s0 := by
        rcases List.mem_cons.mp hs with h | h
        · exact h
        · exact absurd h hst
      subst hs0
      rw [getColD_roll_one_of_ne _ _ _ _ _ (fun j hj => by
        simp only [ne_eq, ColName.roll.injEq, not_and]
        intro _ hsj _
        exact hst (hsj ▸ hj)), getColD_setCol_self]

theorem add_rolling_features_nil (sf : List ℚ → ℚ) (df : DF) (v : ColName)
    (stats : List Stat) : add_rolling_features sf df v [] stats = df := rfl

theorem add_rolling_features_cons (sf : List ℚ → ℚ) (df : DF) (v : ColName) (w : Nat)
    (t : List Nat) (stats : List Stat) :
    add_rolling_features sf df v (w :: t) stats
      = add_rolling_features sf (roll_one sf df v w stats) v t stats := rfl

theorem getColD_add_rolling_of_ne (sf : List ℚ → ℚ) (df : DF) (v : ColName)
    (windows : List Nat) (stats : List Stat) {m : ColName}
    (hm : ∀ w ∈ windows, ∀ s ∈ stats, m ≠ ColName.roll v s w) :
    getColD (add_rolling_features sf df v windows stats) m = getColD df m := by
  induction windows generalizing df with
  | nil => rfl
  | cons w t ih =>
    rw [add_rolling_features_cons, ih _ (fun j hj => hm j (List.mem_cons_of_mem _ hj)),
      getColD_roll_one_of_ne _ _ _ _ _ (hm w (List.mem_cons_self _ _))]

theorem getColD_add_rolling_v (sf : List ℚ → ℚ) (df : DF) (v : ColName)
    (windows : List Nat) (stats : List Stat) :
    getColD (add_rolling_features sf df v windows stats) v = getColD df v :=
  getColD_add_rolling_of_ne sf df v windows stats (fun w _ s _ => (roll_ne_self v s w).symm)

theorem getColD_add_rolling_self (sf : List ℚ → ℚ) (df : DF) (v : ColName)
    (windows : List Nat) (stats : List Stat) (w : Nat) (s : Stat)
    (hw : w ∈ windows) (hs : s ∈ stats) :
    getColD (add_rolling_features sf df v windows stats) (.roll v s w)
      = rollingApply (statFn sf s) w (getColD df v) := by
  induction windows generalizing df with
  | nil => cases hw
  | cons w0 t ih =>
    rw [add_rolling_features_cons]
    by_cases hwt : w ∈ t
    · rw [ih _ hwt, getColD_roll_one_v]
    · have hw0 : w = w0 := by
        rcases List.mem_cons.mp hw with h | h
        · exact h
        · exact absurd h hwt
      subst hw0
      rw [getColD_add_rolling_of_ne _ _ _ _ _ (fun j hj s2 _ => by
        simp only [ne_eq, ColName.roll.injEq, not_and]
        intro _ _ hwj
        exact hwt (hwj ▸ hj)), getColD_roll_one_self _ _ _ _ _ _ hs]

theorem cellsSome?_map_some (vs : List ℚ) : cellsSome? (vs.map some) = some vs := by
  induction vs with
  | nil => rfl
  | cons a t ih => simp [cellsSome?, ih]

theorem colsOf_add_lag (df : DF) (v : ColName) (lags : List Nat) :
    ∃ extra, colsOf (add_lag_features df v lags) = colsOf df ++ extra
      ∧ ∀ m ∈ extra, ∃ k ∈ lags, m = ColName.lag v k := by
  induction lags generalizing df with
  | nil => exact ⟨[], by simp [add_lag_features_nil], by simp⟩
  | cons k t ih =>
    rw [add_lag_features_cons]
    obtain ⟨e1, he1, hm1⟩ := colsOf_setCol df (ColName.lag v k) (shiftCol k (getColD df v))
    obtain ⟨e2, he2, hm2⟩ := ih (setCol df (ColName.lag v k) (shiftCol k (getColD df v)))
    refine ⟨e1 ++ e2, by rw [he2, he1, List.append_assoc], fun m hm => ?_⟩
    rcases List.mem_append.mp hm with h | h
    · rcases hm1 with rfl | rfl
      · cases h
      · rw [List.mem_singleton.mp h]
        exact ⟨k, List.mem_cons_self _ _, rfl⟩
    · obtain ⟨j, hj, hje⟩ := hm2 m h
      exact ⟨j, List.mem_cons_of_mem _ hj, hje⟩

theorem length_add_lag (df : DF) (v : ColName) (lags : List Nat) (N : Nat)
    (hwf : ∀ p ∈ df, p.2.length = N) (hv : (getColD df v).length = N) :
    ∀ p ∈ add_lag_features df v lags, p.2.length = N := by
  induction lags generalizing df with
  | nil => exact hwf
  | cons k t ih =>
    rw [add_lag_features_cons]
    refine ih _ (fun p hp => ?_) ?_
    · rcases mem_setCol hp with h | hp2
      · rw [h]
        simpa [shiftCol_length] using hv
      · exact hwf p hp2
    · rw [getColD_setCol_ne _ _ (Ne.symm (lag_ne_self v k))]
      exact hv

/-! ### Claims C4, C5, C9 (`transforms.py`) -/

/-- C4: for every table, column `col` and list of lags, `add_lag_features`
produces for each `k` in `lags` a column `col_lag_k` whose value at row `i` is
the value of `col` at row `i-k` and is missing for `i < k` (and has exactly
one entry per row of the source column), while every column not named
`col_lag_k` for some `k` in `lags` is left exactly as it was — so no rows are
added, removed, or reordered. -/
theorem claim_C4 (df : DF) (v : ColName) (lags : List Nat) :
    (∀ k ∈ lags,
        (getColD (add_lag_features df v lags) (.lag v k)).length = (getColD df v).length
        ∧ ∀ i < (getColD df v).length,
            (getColD (add_lag_features df v lags) (.lag v k)).getD i none
              = if i < k then none else (getColD df v).getD (i - k) none)
    ∧ (∀ m, (∀ k ∈ lags, m ≠ ColName.lag v k) →
        getColD (add_lag_features df v lags) m = getColD df m) := by
  refine ⟨fun k hk => ?_, fun m hm => getColD_add_lag_of_ne df v lags hm⟩
  rw [getColD_add_lag_self df v lags k hk]
  exact ⟨shiftCol_length k _, fun i hi => shiftCol_getD k _ i hi⟩

/-- Witness for C4 on the concrete five-row frame used by the repository's
own test (`tests/test_transforms.py`): `value_lag_1` at row 2 is row 1's
value. -/
theorem claim_C4_witness :
    (1 ∈ [1, 2]
      ∧ 2 < (getColD [(ColName.base "value",
          [some (10:ℚ), some 20, some 30, some 40, some 50])] (ColName.base "value")).length)
    ∧ (getColD
        (add_lag_features
          [(ColName.base "value", [some (10:ℚ), some 20, some 30, some 40, some 50])]
          (ColName.base "value") [1, 2])
        (ColName.lag (ColName.base "value") 1)).getD 2 none
      = if 2 < 1 then none
        else (getColD [(ColName.base "value",
          [some (10:ℚ), some 20, some 30, some 40, some 50])] (ColName.base "value")).getD
          (2 - 1) none :=
  ⟨⟨by decide, by decide⟩,
    ((claim_C4 [(ColName.base "value", [some (10:ℚ), some 20, some 30, some 40, some 50])]
      (ColName.base "value") [1, 2]).1 1 (by decide)).2 2 (by decide)⟩

/-- C5: for every table, column, windows and stats from `{mean,std,min,max}`,
`add_rolling_features` produces for each window `w` and stat a column
`col_roll_stat_w` whose value at row `i` is the statistic of the trailing
window `col[i-w+1..i]` — missing when fewer than `w` rows are available
(`i + 1 < w`), and equal to the statistic of the window values when the
window is complete and fully non-missing; in particular for `stat = mean` it
is the arithmetic mean (sum divided by `w`) of the trailing `w` values.
Every other column is left exactly as it was. -/
theorem claim_C5 (sf : List ℚ → ℚ) (df : DF) (v : ColName) (windows : List Nat)
    (stats : List Stat) :
    (∀ w ∈ windows, ∀ s ∈ stats,
        (getColD (add_rolling_features sf df v windows stats) (.roll v s w)).length
            = (getColD df v).length
        ∧ (∀ i < (getColD df v).length, i + 1 < w →
            (getColD (add_rolling_features sf df v windows stats) (.roll v s w)).getD i none
              = none)
        ∧ (∀ i < (getColD df v).length, ∀ vs : List ℚ, w ≤ i + 1 →
            windowAt (getColD df v) w i = vs.map some →
            (getColD (add_rolling_features sf df v windows stats) (.roll v s w)).getD i none
              = some (statFn sf s vs)))
    ∧ (∀ w ∈ windows, Stat.mean ∈ stats →
        ∀ i < (getColD df v).length, ∀ vs : List ℚ, w ≤ i + 1 →
          windowAt (getColD df v) w i = vs.map some →
          (getColD (add_rolling_features sf df v windows stats)
              (.roll v Stat.mean w)).getD i none
            = some (vs.sum / (w : ℚ)))
    ∧ (∀ m, (∀ w ∈ windows, ∀ s ∈ stats, m ≠ ColName.roll v s w) →
        getColD (add_rolling_features sf df v windows stats) m = getColD df m) := by
  have key : ∀ w ∈ windows, ∀ s ∈ stats, ∀ i < (getColD df v).length, ∀ vs : List ℚ,
      w ≤ i + 1 → windowAt (getColD df v) w i = vs.map some →
      (getColD (add_rolling_features sf df v windows stats) (.roll v s w)).getD i none
        = some (statFn sf s vs) := by
    intro w hw s hs i hi vs hwle hwin
    rw [getColD_add_rolling_self sf df v windows stats w s hw hs,
      rollingApply_getD _ _ _ _ hi, rollCell, if_neg (by omega), hwin, cellsSome?_map_some]
  refine ⟨fun w hw s hs => ?_, fun w hw hs i hi vs hwle hwin => ?_,
    fun m hm => getColD_add_rolling_of_ne sf df v windows stats hm⟩
  · rw [getColD_add_rolling_self sf df v windows stats w s hw hs]
    refine ⟨rollingApply_length _ _ _, fun i hi hlt => ?_, fun i hi vs hwle hwin => ?_⟩
    · rw [rollingApply_getD _ _ _ _ hi, rollCell, if_pos hlt]
    · rw [rollingApply_getD _ _ _ _ hi, rollCell, if_neg (by omega), hwin, cellsSome?_map_some]
  · have hlen : vs.length = w := by
      have h1 := windowAt_length (getColD df v) w i hwle hi
      rw [hwin, List.length_map] at h1
      exact h1
    rw [key w hw Stat.mean hs i hi vs hwle hwin]
    simp [statFn, meanQ, hlen]

/-- Witness for C5: rolling mean over window 3 at row 2 of the repository's
own test column `[10,20,30,40,50]` equals `(10+20+30)/3`. -/
theorem claim_C5_witness :
    (3 ∈ [3] ∧ Stat.mean ∈ [Stat.mean, Stat.std]
      ∧ 2 < (getColD [(ColName.base "value",
          [some (10:ℚ), some 20, some 30, some 40, some 50])] (ColName.base "value")).length
      ∧ 3 ≤ 2 + 1
      ∧ windowAt (getColD [(ColName.base "value",
          [some (10:ℚ), some 20, some 30, some 40, some 50])] (ColName.base "value")) 3 2
        = ([10, 20, 30] : List ℚ).map some)
    ∧ (getColD
        (add_rolling_features (fun _ => 0)
          [(ColName.base "value", [some (10:ℚ), some 20, some 30, some 40, some 50])]
          (ColName.base "value") [3] [Stat.mean, Stat.std])
        (ColName.roll (ColName.base "value") Stat.mean 3)).getD 2 none
      = some (([10, 20, 30] : List ℚ).sum / (3 : ℚ)) :=
  ⟨⟨by decide, by decide, by decide, by decide, by decide⟩,
    (claim_C5 (fun _ => 0)
      [(ColName.base "value", [some (10:ℚ), some 20, some 30, some 40, some 50])]
      (ColName.base "value") [3] [Stat.mean, Stat.std]).2.1 3 (by decide) (by decide)
      2 (by decide) [10, 20, 30] (by decide) (by decide)⟩

/-- C9 fails as stated: `add_lag_features` writes its lag columns into the
caller's frame in place (`df[...] = ...` with no `df.copy()`), so the
argument after the call is not the unchanged input frame.  Concretely, on a
one-column two-row frame with `lags = [1]` the caller's frame has gained a
`value_lag_1` column. -/
theorem claim_C9_counterexample :
    (add_lag_features_call [(ColName.base "value", [some (1:ℚ), some 2])]
        (ColName.base "value") [1]).1
      ≠ [(ColName.base "value", [some (1:ℚ), some 2])] := by decide

/-- C9 amended: `add_lag_features` is not pure — it mutates the caller's
table, which afterwards equals the returned table — but the returned table
does contain exactly the input's rows in the input's order: every column not
named `col_lag_k` is untouched, the new names are appended after the existing
columns, and every column of the result has one entry per input row. -/
theorem claim_C9 (df : DF) (v : ColName) (lags : List Nat)
    (hwf : ∀ p ∈ df, p.2.length = nrows df) (hv : hasCol df v = true) :
    (add_lag_features_call df v lags).1 = (add_lag_features_call df v lags).2
    ∧ (∀ m, (∀ k ∈ lags, m ≠ ColName.lag v k) →
        getColD ((add_lag_features_call df v lags).2) m = getColD df m)
    ∧ (∃ extra, colsOf ((add_lag_features_call df v lags).2) = colsOf df ++ extra
        ∧ ∀ m ∈ extra, ∃ k ∈ lags, m = ColName.lag v k)
    ∧ (∀ p ∈ (add_lag_features_call df v lags).2, p.2.length = nrows df) := by
  have hvlen : (getColD df v).length = nrows df := by
    have h1 : (getCol? df v).isSome := hv
    obtain ⟨c, hc⟩ := Option.isSome_iff_exists.mp h1
    have h2 := getCol?_mem hc
    have h3 := hwf _ h2
    rw [getColD, hc]
    exact h3
  exact ⟨rfl, fun m hm => getColD_add_lag_of_ne df v lags hm, colsOf_add_lag df v lags,
    length_add_lag df v lags _ hwf hvlen⟩

/-- Witness for the amended C9 on a concrete two-row frame. -/
theorem claim_C9_witness :
    ((∀ p ∈ [(ColName.base "value", [some (1:ℚ), some 2])],
        p.2.length = nrows [(ColName.base "value", [some (1:ℚ), some 2])])
      ∧ hasCol [(ColName.base "value", [some (1:ℚ), some 2])] (ColName.base "value") = true)
    ∧ (add_lag_features_call [(ColName.base "value", [some (1:ℚ), some 2])]
          (ColName.base "value") [1]).1
        = (add_lag_features_call [(ColName.base "value", [some (1:ℚ), some 2])]
          (ColName.base "value") [1]).2 :=
  ⟨⟨by decide, by decide⟩,
    (claim_C9 [(ColName.base "value", [some (1:ℚ), some 2])] (ColName.base "value") [1]
      (by decide) (by decide)).1⟩

/-! ### The synthesized row (claim C7) -/

theorem scLookup_nil (n : ColName) : scLookup [] n = none := rfl

theorem scLookup_cons_self {p : ColName × List ℚ} {t : Scenario} {n : ColName}
    (h : p.1 = n) : scLookup (p :: t) n = some p.2 := by
  simp [scLookup, List.find?, h]

theorem scLookup_cons_ne {p : ColName × List ℚ} {t : Scenario} {n : ColName}
    (h : p.1 ≠ n) : scLookup (p :: t) n = scLookup t n := by
  have hb : (p.1 == n) = false := beq_eq_false_iff_ne.mpr h
  simp [scLookup, List.find?, hb]

theorem scLookup_eq_none_of_not_mem {t : Scenario} {n : ColName}
    (h : ∀ q ∈ t, q.1 ≠ n) : scLookup t n = none := by
  induction t with
  | nil => rfl
  | cons q r ih =>
    rw [scLookup_cons_ne (h q (List.mem_cons_self _ _))]
    exact ih (fun x hx => h x (List.mem_cons_of_mem _ hx))

theorem synthFold_char (base : ColName → Cell) (cols : List ColName) (sc : Scenario)
    (idx : Nat) (n : ColName) (hnodup : (sc.map Prod.fst).Nodup) :
    sc.foldl
        (fun r p =>
          if idx < p.2.length ∧ p.1 ∈ cols then
            fun m => if m = p.1 then some (p.2.getD idx 0) else r m
          else r)
        base n
      = match scLookup sc n with
        | some vals =>
          if idx < vals.length ∧ n ∈ cols then some (vals.getD idx 0) else base n
        | none => base n := by
  induction sc generalizing base with
  | nil => rfl
  | cons p t ih =>
    rw [List.foldl_cons]
    rw [List.map_cons, List.nodup_cons] at hnodup
    by_cases hn : p.1 = n
    · have hnone : scLookup t n = none := by
        refine scLookup_eq_none_of_not_mem (fun q hq hqn => ?_)
        exact hnodup.1 (hn ▸ hqn ▸ List.mem_map_of_mem Prod.fst hq)
      rw [ih _ hnodup.2, hnone, scLookup_cons_self hn]
      subst hn
      by_cases hc : idx < p.2.length ∧ p.1 ∈ cols
      · simp [hc]
      · simp [hc]
    · have hbase : (if idx < p.2.length ∧ p.1 ∈ cols then
          (fun m => if m = p.1 then some (p.2.getD idx 0) else base m) else base) n = base n := by
        by_cases hc : idx < p.2.length ∧ p.1 ∈ cols
        · rw [if_pos hc, if_neg (fun h => hn h.symm)]
        · rw [if_neg hc]
      rw [ih _ hnodup.2, scLookup_cons_ne hn, hbase]

/-- C7: the synthesized row equals the template except that `date` is set to
the requested date and each scenario variable `var` replaces the base value
with `scenario[var][idx]` exactly when the positional index is in range and
`var` is a column of the matrix; an out-of-range index keeps the template
value, and a scenario variable absent from the matrix is ignored (the guard
makes the unguarded `row[var] = ...` assignment — which would raise —
unreachable).  Scenario keys are the keys of a Python dict, hence distinct,
and the date column is not a scenario variable. -/
theorem claim_C7 (file : DF) (sc : Scenario) (idx : Nat) (d : ℚ) (n : ColName)
    (hnodup : (sc.map Prod.fst).Nodup) (hdate : ∀ p ∈ sc, p.1 ≠ ColName.date) :
    synthRow (lastRow file) (colsOf file) sc idx d n
      = if n = ColName.date then some d
        else
          match scLookup sc n with
          | some vals =>
            if idx < vals.length ∧ n ∈ colsOf file then some (vals.getD idx 0)
            else lastRow file n
          | none => lastRow file n := by
  rw [synthRow, synthFold_char _ _ _ _ _ hnodup]
  by_cases hd : n = ColName.date
  · subst hd
    rw [scLookup_eq_none_of_not_mem hdate]
  · cases hsc : scLookup sc n with
    | none => simp [hsc, hd]
    | some vals => simp [hsc, hd]

/-- Witness for C7 on a two-column history with a one-variable scenario. -/
theorem claim_C7_witness :
    (([(ColName.base "brent_price", [10])] : Scenario).map Prod.fst).Nodup
    ∧ (∀ p ∈ ([(ColName.base "brent_price", [10])] : Scenario), p.1 ≠ ColName.date)
    ∧ synthRow
        (lastRow [(ColName.date, [some (0:ℚ)]), (ColName.base "brent_price", [some (3:ℚ)])])
        (colsOf [(ColName.date, [some (0:ℚ)]), (ColName.base "brent_price", [some (3:ℚ)])])
        [(ColName.base "brent_price", [10])] 0 7 (ColName.base "brent_price")
      = if (ColName.base "brent_price") = ColName.date then some 7
        else
          match scLookup [(ColName.base "brent_price", [10])] (ColName.base "brent_price") with
          | some vals =>
            if 0 < vals.length ∧ (ColName.base "brent_price")
                ∈ colsOf [(ColName.date, [some (0:ℚ)]),
                    (ColName.base "brent_price", [some (3:ℚ)])] then
              some (vals.getD 0 0)
            else lastRow [(ColName.date, [some (0:ℚ)]),
              (ColName.base "brent_price", [some (3:ℚ)])] (ColName.base "brent_price")
          | none => lastRow [(ColName.date, [some (0:ℚ)]),
              (ColName.base "brent_price", [some (3:ℚ)])] (ColName.base "brent_price") :=
  ⟨by decide, by decide,
    claim_C7 [(ColName.date, [some (0:ℚ)]), (ColName.base "brent_price", [some (3:ℚ)])]
      [(ColName.base "brent_price", [10])] 0 7 (ColName.base "brent_price")
      (by decide) (by decide)⟩

/-! ### The `/predict` endpoint (claim C3) -/

/-- C3: a `/predict` request with an empty `dates` list is rejected by the
Pydantic schema validation (`min_length=1`) with a 422 client error before
the handler body runs; in particular no model load and no predict call is
attempted (the attempted-load flag is false), for every registry state,
persisted feature matrix and scenario. -/
theorem claim_C3 (sf : List ℚ → ℚ)
    (loadRes : Option ((List Cell → ℚ) × Option (List ColName))) (file : DF)
    (sc : Scenario) :
    isClientError (predictEndpoint sf loadRes file ⟨[], sc⟩).1
    ∧ (predictEndpoint sf loadRes file ⟨[], sc⟩).2 = false := by
  refine ⟨?_, rfl⟩
  show isClientError (ApiResp.err 422 _)
  exact ⟨by norm_num, by norm_num⟩

/-! ### The derive loop -/

theorem getColD_stepVar_of_ne (sf : List ℚ → ℚ) (df : DF) (c : ColName) {m : ColName}
    (hlag : ∀ k ∈ lagsList, m ≠ ColName.lag c k)
    (hroll : ∀ w ∈ windowsList, ∀ s ∈ defaultStats, m ≠ ColName.roll c s w) :
    getColD (stepVar sf df c) m = getColD df m := by
  rw [stepVar, getColD_add_rolling_of_ne _ _ _ _ _ hroll, getColD_add_lag_of_ne _ _ _ hlag]

theorem getColD_stepVar_base (sf : List ℚ → ℚ) (df : DF) (c : ColName) (v : String) :
    getColD (stepVar sf df c) (.base v) = getColD df (.base v) :=
  getColD_stepVar_of_ne sf df c (fun k _ => by simp) (fun w _ s _ => by simp)

theorem getColD_stepVar_date (sf : List ℚ → ℚ) (df : DF) (c : ColName) :
    getColD (stepVar sf df c) .date = getColD df .date :=
  getColD_stepVar_of_ne sf df c (fun k _ => by simp) (fun w _ s _ => by simp)

theorem getColD_stepVar_c (sf : List ℚ → ℚ) (df : DF) (c : ColName) :
    getColD (stepVar sf df c) c = getColD df c := by
  rw [stepVar, getColD_add_rolling_v, getColD_add_lag_v]

theorem getColD_stepVar_lag_self (sf : List ℚ → ℚ) (df : DF) (c : ColName) (k : Nat)
    (hk : k ∈ lagsList) :
    getColD (stepVar sf df c) (.lag c k) = shiftCol k (getColD df c) := by
  rw [stepVar, getColD_add_rolling_of_ne _ _ _ _ _ (fun w _ s _ => by simp),
    getColD_add_lag_self _ _ _ _ hk]

theorem getColD_stepVar_roll_self (sf : List ℚ → ℚ) (df : DF) (c : ColName) (w : Nat)
    (s : Stat) (hw : w ∈ windowsList) (hs : s ∈ defaultStats) :
    getColD (stepVar sf df c) (.roll c s w) = rollingApply (statFn sf s) w (getColD df c) := by
  rw [stepVar, getColD_add_rolling_self _ _ _ _ _ _ _ hw hs, getColD_add_lag_v]

theorem deriveAll_nil (sf : List ℚ → ℚ) (df : DF) : deriveAll sf df [] = df := rfl

theorem deriveAll_cons (sf : List ℚ → ℚ) (df : DF) (c : ColName) (l : List ColName) :
    deriveAll sf df (c :: l) = deriveAll sf (stepVar sf df c) l := rfl

theorem getColD_deriveAll_base (sf : List ℚ → ℚ) (df : DF) (l : List ColName) (v : String) :
    getColD (deriveAll sf df l) (.base v) = getColD df (.base v) := by
  induction l generalizing df with
  | nil => rfl
  | cons c t ih => rw [deriveAll_cons, ih, getColD_stepVar_base]

theorem getColD_deriveAll_date (sf : List ℚ → ℚ) (df : DF) (l : List ColName) :
    getColD (deriveAll sf df l) .date = getColD df .date := by
  induction l generalizing df with
  | nil => rfl
  | cons c t ih => rw [deriveAll_cons, ih, getColD_stepVar_date]

theorem getColD_deriveAll_lag_of_not_mem (sf : List ℚ → ℚ) (df : DF) (l : List ColName)
    (x : ColName) (k : Nat) (hx : x ∉ l) :
    getColD (deriveAll sf df l) (.lag x k) = getColD df (.lag x k) := by
  induction l generalizing df with
  | nil => rfl
  | cons c t ih =>
    have hcx : c ≠ x := fun h => hx (h ▸ List.mem_cons_self _ _)
    rw [deriveAll_cons, ih _ (fun h => hx (List.mem_cons_of_mem _ h)),
      getColD_stepVar_of_ne _ _ _ (fun j _ => by
        simp only [ne_eq, ColName.lag.injEq, not_and]
        exact fun hxc _ => hcx hxc.symm)
        (fun w _ s _ => by simp)]

theorem getColD_deriveAll_roll_of_not_mem (sf : List ℚ → ℚ) (df : DF) (l : List ColName)
    (x : ColName) (w : Nat) (s : Stat) (hx : x ∉ l) :
    getColD (deriveAll sf df l) (.roll x s w) = getColD df (.roll x s w) := by
  induction l generalizing df with
  | nil => rfl
  | cons c t ih =>
    have hcx : c ≠ x := fun h => hx (h ▸ List.mem_cons_self _ _)
    rw [deriveAll_cons, ih _ (fun h => hx (List.mem_cons_of_mem _ h)),
      getColD_stepVar_of_ne _ _ _ (fun j _ => by simp)
        (fun w2 _ s2 _ => by
          simp only [ne_eq, ColName.roll.injEq, not_and]
          exact fun hxc _ _ => hcx hxc.symm)]

theorem getColD_deriveAll_lag_base (sf : List ℚ → ℚ) (df : DF) (l : List ColName)
    (v : String) (k : Nat) (hk : k ∈ lagsList) (hv : ColName.base v ∈ l) :
    getColD (deriveAll sf df l) (.lag (.base v) k) = shiftCol k (getColD df (.base v)) := by
  induction l generalizing df with
  | nil => cases hv
  | cons c t ih =>
    rw [deriveAll_cons]
    by_cases hvt : ColName.base v ∈ t
    · rw [ih _ hvt, getColD_stepVar_base]
    · have hc : c = ColName.base v := by
        rcases List.mem_cons.mp hv with h | h
        · exact h.symm
        · exact absurd h hvt
      subst hc
      rw [getColD_deriveAll_lag_of_not_mem _ _ _ _ _ hvt, getColD_stepVar_lag_self _ _ _ _ hk]

theorem getColD_deriveAll_roll_base (sf : List ℚ → ℚ) (df : DF) (l : List ColName)
    (v : String) (w : Nat) (s : Stat) (hw : w ∈ windowsList) (hs : s ∈ defaultStats)
    (hv : ColName.base v ∈ l) :
    getColD (deriveAll sf df l) (.roll (.base v) s w)
      = rollingApply (statFn sf s) w (getColD df (.base v)) := by
  induction l generalizing df with
  | nil => cases hv
  | cons c t ih =>
    rw [deriveAll_cons]
    by_cases hvt : ColName.base v ∈ t
    · rw [ih _ hvt, getColD_stepVar_base]
    · have hc : c = ColName.base v := by
        rcases List.mem_cons.mp hv with h | h
        · exact h.symm
        · exact absurd h hvt
      subst hc
      rw [getColD_deriveAll_roll_of_not_mem _ _ _ _ _ _ hvt,
        getColD_stepVar_roll_self _ _ _ _ _ hw hs]

/-! ### Column bookkeeping of the preparer pipeline -/

theorem colsOf_sortByDate (df : DF) : colsOf (sortByDate df) = colsOf df := by
  simp [sortByDate, colsOf]

theorem colsOf_concatDF (a b : DF) : colsOf (concatDF a b) = colsOf a := by
  simp [concatDF, colsOf]

theorem colsOf_combinedOf (file : DF) (dates : List ℚ) (sc : Scenario) :
    colsOf (combinedOf file dates sc) = colsOf file := by
  rw [combinedOf, colsOf_sortByDate, colsOf_concatDF, colsOf_sortByDate]

theorem getCol?_baseOnly (df : DF) (n : ColName) (h : isBaseDate n = true) :
    getCol? (baseOnly df) n = getCol? df n := by
  induction df with
  | nil => rfl
  | cons p t ih =>
    rw [baseOnly] at ih ⊢
    rw [List.filter_cons]
    by_cases hp : isBaseDate p.1
    · rw [if_pos (by simpa using hp)]
      simp only [getCol?]
      by_cases hpn : p.1 = n
      · rw [if_pos hpn, if_pos hpn]
      · rw [if_neg hpn, if_neg hpn]
        exact ih
    · rw [if_neg (by simpa using hp)]
      have hpn : p.1 ≠ n := fun he => hp (by rw [he]; exact h)
      conv_rhs => rw [getCol?]
      rw [if_neg hpn]
      exact ih

theorem getColD_baseOnly (df : DF) (n : ColName) (h : isBaseDate n = true) :
    getColD (baseOnly df) n = getColD df n := by
  rw [getColD, getCol?_baseOnly df n h, getColD]

theorem mem_colsOf_baseOnly (df : DF) (n : ColName) (h : isBaseDate n = true)
    (hm : n ∈ colsOf df) : n ∈ colsOf (baseOnly df) := by
  rw [colsOf] at hm ⊢
  obtain ⟨p, hp, hpe⟩ := List.mem_map.mp hm
  exact List.mem_map.mpr ⟨p, List.mem_filter.mpr ⟨hp, by rw [hpe]; exact h⟩, hpe⟩

/-! ### Claim C1: the preparer's recompute agrees with the builder transform -/

/-- C1: for every history matrix, requested dates and scenario, after the
preparer concatenates the synthesized rows onto the history and sorts by
date, every first-order lag column `var_lag_k` (k ∈ {1,2,3,6,12}) and rolling
column `var_roll_stat_w` (w ∈ {3,6,12}, stat ∈ {mean,std}) of the preparer's
recomputed frame equals the corresponding column produced by applying the
builder's feature-generation step to the base columns of the same combined
sequence.  Both sides equal `shift`/`rolling` of the combined base column, so
the synthesized rows' derived values are recomputed from the true combined
history — the template's stale derived columns are overwritten, never read
(the preparer's extra loop iterations over stale derived names only create
second-order columns, which cannot collide with the first-order names). -/
theorem claim_C1 (sf : List ℚ → ℚ) (file : DF) (dates : List ℚ) (sc : Scenario)
    (v : String) (hv : ColName.base v = targetCol ∨ ColName.base v ∈ colsOf file) :
    (∀ k ∈ lagsList,
        getColD (deriveAll sf (combinedOf file dates sc) (inferLoopCols file))
            (.lag (.base v) k)
          = getColD (builderDerive sf (baseOnly (combinedOf file dates sc)))
            (.lag (.base v) k))
    ∧ (∀ w ∈ windowsList, ∀ s ∈ defaultStats,
        getColD (deriveAll sf (combinedOf file dates sc) (inferLoopCols file))
            (.roll (.base v) s w)
          = getColD (builderDerive sf (baseOnly (combinedOf file dates sc)))
            (.roll (.base v) s w)) := by
  have hbd : isBaseDate (ColName.base v) = true := rfl
  have hmemInfer : ColName.base v ∈ inferLoopCols file := by
    rcases hv with h | h
    · rw [inferLoopCols, h]
      exact List.mem_cons_self _ _
    · by_cases ht : ColName.base v = targetCol
      · rw [inferLoopCols, ht]
        exact List.mem_cons_self _ _
      · refine List.mem_cons_of_mem _ (List.mem_filter.mpr ⟨h, ?_⟩)
        simp [ht]
  have hmemBuild : ColName.base v
      ∈ targetCol :: (colsOf (baseOnly (combinedOf file dates sc))).filter
        (fun c => !(c == ColName.date || c == targetCol)) := by
    by_cases ht : ColName.base v = targetCol
    · rw [ht]
      exact List.mem_cons_self _ _
    · rcases hv with h | h
      · exact absurd h ht
      · refine List.mem_cons_of_mem _ (List.mem_filter.mpr ⟨?_, by simp [ht]⟩)
        exact mem_colsOf_baseOnly _ _ hbd (by rw [colsOf_combinedOf]; exact h)
  have hbase : getColD (baseOnly (combinedOf file dates sc)) (.base v)
      = getColD (combinedOf file dates sc) (.base v) := getColD_baseOnly _ _ hbd
  constructor
  · intro k hk
    rw [getColD_deriveAll_lag_base _ _ _ _ _ hk hmemInfer, builderDerive,
      getColD_deriveAll_lag_base _ _ _ _ _ hk hmemBuild, hbase]
  · intro w hw s hs
    rw [getColD_deriveAll_roll_base _ _ _ _ _ _ hw hs hmemInfer, builderDerive,
      getColD_deriveAll_roll_base _ _ _ _ _ _ hw hs hmemBuild, hbase]

/-- Witness for C1 on a two-column history with one requested date and an
empty scenario. -/
theorem claim_C1_witness :
    (ColName.base "saudi_production" = targetCol
      ∨ ColName.base "saudi_production"
          ∈ colsOf [(ColName.date, [some (0:ℚ)]),
              (ColName.base "saudi_production", [some (5:ℚ)])])
    ∧ (1 ∈ lagsList)
    ∧ getColD
        (deriveAll (fun _ => 0)
          (combinedOf [(ColName.date, [some (0:ℚ)]),
            (ColName.base "saudi_production", [some (5:ℚ)])] [1] [])
          (inferLoopCols [(ColName.date, [some (0:ℚ)]),
            (ColName.base "saudi_production", [some (5:ℚ)])]))
        (.lag (.base "saudi_production") 1)
      = getColD
        (builderDerive (fun _ => 0)
          (baseOnly (combinedOf [(ColName.date, [some (0:ℚ)]),
            (ColName.base "saudi_production", [some (5:ℚ)])] [1] [])))
        (.lag (.base "saudi_production") 1) :=
  ⟨Or.inl rfl, by decide,
    (claim_C1 (fun _ => 0)
      [(ColName.date, [some (0:ℚ)]), (ColName.base "saudi_production", [some (5:ℚ)])]
      [1] [] "saudi_production" (Or.inl rfl)).1 1 (by decide)⟩

/-! ### Sorting an already-sorted frame, concatenation, synthesized columns -/

theorem hasCol_of_mem {df : DF} {p : ColName × Col} (h : p ∈ df) : hasCol df p.1 = true := by
  induction df with
  | nil => cases h
  | cons q t ih =>
    rcases List.mem_cons.mp h with h1 | h1
    · subst h1
      simp [hasCol, getCol?]
    · by_cases hq : q.1 = p.1
      · simp [hasCol, getCol?, hq]
      · simpa [hasCol, getCol?, hq] using ih h1

theorem hasCol_iff_mem_colsOf {df : DF} {n : ColName} :
    hasCol df n = true ↔ n ∈ colsOf df := by
  induction df with
  | nil => simp [hasCol, getCol?, colsOf]
  | cons q t ih =>
    by_cases hq : q.1 = n
    · simp [hasCol, getCol?, hq, colsOf]
    · simp only [hasCol, getCol?, if_neg hq, colsOf, List.map_cons, List.mem_cons]
      rw [← colsOf, ← hasCol, ih]
      constructor
      · exact Or.inr
      · rintro (h | h)
        · exact absurd h.symm hq
        · exact h

theorem getCol?_map_eq (df : DF) (g : ColName × Col → Col) (n : ColName) :
    getCol? (df.map (fun p => (p.1, g p))) n
      = Option.map (fun c => g (n, c)) (getCol? df n) := by
  induction df with
  | nil => rfl
  | cons p t ih =>
    obtain ⟨a, b⟩ := p
    simp only [List.map_cons, getCol?]
    by_cases hpn : a = n
    · subst hpn
      simp
    · simp only [hpn, if_false, ih]

theorem getColD_concat (a b : DF) (n : ColName) (h : hasCol a n = true) :
    getColD (concatDF a b) n = getColD a n ++ getColD b n := by
  obtain ⟨c, hc⟩ := Option.isSome_iff_exists.mp h
  rw [concatDF, getColD, getCol?_map_eq a (fun p => p.2 ++ getColD b p.1) n, hc]
  rw [getColD, hc]
  rfl

theorem applyIdx_range (c : Col) : applyIdx c (List.range c.length) = c := by
  refine List.ext_getElem (by simp [applyIdx]) (fun i h1 h2 => ?_)
  simp only [applyIdx, List.getElem_map, List.getElem_range]
  exact List.getD_eq_getElem c none h2

theorem insertBy_eq_append {α : Type} (le : α → α → Bool) (x : α) (acc : List α)
    (h : ∀ y ∈ acc, le y x = true) : insertBy le x acc = acc ++ [x] := by
  induction acc with
  | nil => rfl
  | cons y t ih =>
    rw [insertBy, if_pos (h y (List.mem_cons_self _ _)), ih (fun z hz => h z (List.mem_cons_of_mem _ hz))]
    rfl

theorem foldl_insertBy_eq_append {α : Type} (le : α → α → Bool) (l acc : List α)
    (h1 : ∀ x ∈ l, ∀ y ∈ acc, le y x = true)
    (h2 : l.Pairwise (fun a b => le a b = true)) :
    l.foldl (fun a x => insertBy le x a) acc = acc ++ l := by
  induction l generalizing acc with
  | nil => simp
  | cons x t ih =>
    rw [List.foldl_cons, insertBy_eq_append le x acc (h1 x (List.mem_cons_self _ _)),
      ih (acc ++ [x]) ?_ (List.Pairwise.of_cons h2)]
    · simp
    · intro z hz y hy
      rcases List.mem_append.mp hy with hya | hyx
      · exact h1 z (List.mem_cons_of_mem _ hz) y hya
      · rw [List.mem_singleton.mp hyx]
        exact (List.pairwise_cons.mp h2).1 z hz

theorem sortBy_eq_self {α : Type} (le : α → α → Bool) (l : List α)
    (h : l.Pairwise (fun a b => le a b = true)) : sortBy le l = l := by
  rw [sortBy, foldl_insertBy_eq_append le l [] (fun x _ y hy => absurd hy (List.not_mem_nil y)) h]
  rfl

theorem sortByDate_eq_self (df : DF) (qs : List ℚ)
    (hd : getColD df .date = qs.map some)
    (hlen : ∀ p ∈ df, p.2.length = qs.length)
    (hsort : qs.Pairwise (· ≤ ·)) :
    sortByDate df = df := by
  cases hdf : df with
  | nil => rfl
  | cons p0 t =>
    subst hdf
    have hn : nrows (p0 :: t) = qs.length := hlen p0 (List.mem_cons_self _ _)
    have hkey : (List.range (nrows (p0 :: t))).Pairwise
        (fun i j => cellLeQ ((getColD (p0 :: t) .date).getD i none)
          ((getColD (p0 :: t) .date).getD j none) = true) := by
      rw [List.pairwise_iff_getElem]
      intro i j hi hj hij
      simp only [List.getElem_range]
      rw [List.length_range] at hi hj
      rw [hn] at hi hj
      have hdi : (getColD (p0 :: t) .date).getD i none = some (qs.getD i 0) := by
        rw [hd, List.getD_eq_getElem _ _ (by simpa using hi), List.getElem_map,
          List.getD_eq_getElem _ _ hi]
      have hdj : (getColD (p0 :: t) .date).getD j none = some (qs.getD j 0) := by
        rw [hd, List.getD_eq_getElem _ _ (by simpa using hj), List.getElem_map,
          List.getD_eq_getElem _ _ hj]
      rw [hdi, hdj]
      show decide (qs.getD i 0 ≤ qs.getD j 0) = true
      rw [decide_eq_true_eq, List.getD_eq_getElem _ _ hi, List.getD_eq_getElem _ _ hj]
      exact (List.pairwise_iff_getElem.mp hsort) i j hi hj hij
    rw [sortByDate, sortBy_eq_self _ _ hkey]
    refine (List.map_congr_left ?_).trans (List.map_id _)
    intro p hp
    have hplen : p.2.length = qs.length := hlen p hp
    rw [show nrows (p0 :: t) = p.2.length from hn.trans hplen.symm, applyIdx_range]
    simp

theorem synthFold_not_key (base : ColName → Cell) (cols : List ColName) (sc : Scenario)
    (idx : Nat) (n : ColName) (h : ∀ p ∈ sc, p.1 ≠ n) :
    sc.foldl
        (fun r p =>
          if idx < p.2.length ∧ p.1 ∈ cols then
            fun m => if m = p.1 then some (p.2.getD idx 0) else r m
          else r)
        base n = base n := by
  induction sc generalizing base with
  | nil => rfl
  | cons p t ih =>
    rw [List.foldl_cons, ih _ (fun q hq => h q (List.mem_cons_of_mem _ hq))]
    by_cases hc : idx < p.2.length ∧ p.1 ∈ cols
    · rw [if_pos hc]
      exact if_neg (fun he => h p (List.mem_cons_self _ _) he.symm)
    · rw [if_neg hc]

theorem synthRow_date (template : ColName → Cell) (cols : List ColName) (sc : Scenario)
    (idx : Nat) (d : ℚ) (h : ∀ p ∈ sc, p.1 ≠ ColName.date) :
    synthRow template cols sc idx d .date = some d := by
  rw [synthRow, synthFold_not_key _ _ _ _ _ h, if_pos rfl]

theorem scLookup_of_mem_nodup {sc : Scenario} {var : ColName} {vals : List ℚ}
    (hm : (var, vals) ∈ sc) (hnodup : (sc.map Prod.fst).Nodup) :
    scLookup sc var = some vals := by
  induction sc with
  | nil => cases hm
  | cons p t ih =>
    rw [List.map_cons, List.nodup_cons] at hnodup
    rcases List.mem_cons.mp hm with h1 | h1
    · rw [scLookup_cons_self (by rw [← h1])]
      rw [← h1]
    · have hp : p.1 ≠ var := by
        intro he
        exact hnodup.1 (he ▸ List.mem_map_of_mem Prod.fst h1)
      rw [scLookup_cons_ne hp]
      exact ih h1 hnodup.2

theorem synthRow_override (template : ColName → Cell) (cols : List ColName) (sc : Scenario)
    (idx : Nat) (d : ℚ) (var : ColName) (vals : List ℚ)
    (hm : (var, vals) ∈ sc) (hnodup : (sc.map Prod.fst).Nodup)
    (hidx : idx < vals.length) (hcols : var ∈ cols) :
    synthRow template cols sc idx d var = some (vals.getD idx 0) := by
  rw [synthRow, synthFold_char _ _ _ _ _ hnodup, scLookup_of_mem_nodup hm hnodup]
  simp [hidx, hcols]

theorem getD_range_map {β : Type} (m i : Nat) (f : Nat → β) (d : β) (h : i < m) :
    ((List.range m).map f).getD i d = f i := by
  rw [List.getD_eq_getElem _ _ (by simpa using h)]
  simp

theorem range_map_some (l : List ℚ) :
    (List.range l.length).map (fun idx => (some (l.getD idx 0) : Cell)) = l.map some := by
  refine List.ext_getElem (by simp) (fun i h1 h2 => ?_)
  simp only [List.getElem_map, List.getElem_range]
  rw [List.length_map] at h2
  rw [List.getD_eq_getElem _ _ h2]

theorem getColD_dfPred (base : DF) (dates : List ℚ) (sc : Scenario) (n : ColName)
    (h : hasCol base n = true) :
    getColD (dfPred base dates sc) n
      = (List.range dates.length).map
          (fun idx => synthRow (lastRow base) (colsOf base) sc idx (dates.getD idx 0) n) := by
  obtain ⟨c, hc⟩ := Option.isSome_iff_exists.mp h
  rw [dfPred, getColD, getCol?_map_eq base _ n, hc]
  rfl

theorem getColD_length_of_wf (df : DF) (n : ColName) (N : Nat)
    (h : hasCol df n = true) (hlen : ∀ p ∈ df, p.2.length = N) :
    (getColD df n).length = N := by
  obtain ⟨c, hc⟩ := Option.isSome_iff_exists.mp h
  rw [getColD, hc]
  exact hlen _ (getCol?_mem hc)

/-- When the history is date-sorted and all requested dates extend it in
nondecreasing order, both `sort_values` calls of `_prepare_inputs` are the
identity and the combined frame is literally history followed by the
synthesized rows. -/
theorem combinedOf_eq (file : DF) (qs ds : List ℚ) (sc : Scenario)
    (hdate : hasCol file ColName.date = true)
    (hd : getColD file .date = qs.map some)
    (hlen : ∀ p ∈ file, p.2.length = qs.length)
    (hsort : (qs ++ ds).Pairwise (· ≤ ·))
    (hscd : ∀ p ∈ sc, p.1 ≠ ColName.date) :
    combinedOf file ds sc = concatDF file (dfPred file ds sc) := by
  have hqs : qs.Pairwise (· ≤ ·) := hsort.sublist (List.sublist_append_left qs ds)
  have h1 : sortByDate file = file := sortByDate_eq_self file qs hd hlen hqs
  have hdpre : getColD (concatDF file (dfPred file ds sc)) .date = (qs ++ ds).map some := by
    rw [getColD_concat _ _ _ hdate, hd, getColD_dfPred _ _ _ _ hdate]
    have hfn : (fun idx => synthRow (lastRow file) (colsOf file) sc idx (ds.getD idx 0)
        ColName.date) = fun idx => (some (ds.getD idx 0) : Cell) :=
      funext fun idx => synthRow_date _ _ _ _ _ hscd
    rw [hfn, range_map_some, List.map_append]
  have hlenpre : ∀ p ∈ concatDF file (dfPred file ds sc),
      p.2.length = (qs ++ ds).length := by
    intro p hp
    rw [concatDF] at hp
    obtain ⟨q, hq, he⟩ := List.mem_map.mp hp
    rw [← he]
    have h2 : (getColD (dfPred file ds sc) q.1).length = ds.length := by
      rw [getColD_dfPred _ _ _ _ (hasCol_of_mem hq)]
      simp
    simp only [List.length_append]
    rw [hlen q hq, h2]
  rw [combinedOf, h1, sortByDate_eq_self _ (qs ++ ds) hdpre hlenpre hsort]

/-! ### Claim C10: scenario overrides of the target column -/

/-- C10: the override guard of `_prepare_inputs` checks only the positional
index and column membership, so a scenario entry for `saudi_production`
itself replaces the target's base value on the synthesized row (part 1), and
the recomputed target lag/rolling columns are computed from the combined
target sequence containing that overridden value (parts 2 and 3): in
particular `saudi_production_lag_1` one row after the overridden row equals
the overridden value (part 4). -/
theorem claim_C10 (sf : List ℚ → ℚ) (file : DF) (qs ds : List ℚ) (sc : Scenario)
    (vals : List ℚ) (idx : Nat)
    (hdate : hasCol file ColName.date = true)
    (hd : getColD file .date = qs.map some)
    (hlen : ∀ p ∈ file, p.2.length = qs.length)
    (hsort : (qs ++ ds).Pairwise (· ≤ ·))
    (hscd : ∀ p ∈ sc, p.1 ≠ ColName.date)
    (hnodup : (sc.map Prod.fst).Nodup)
    (hmem : (targetCol, vals) ∈ sc)
    (hidx : idx < vals.length)
    (htc : targetCol ∈ colsOf file)
    (hidxd : idx < ds.length) :
    (getColD (combinedOf file ds sc) targetCol).getD (qs.length + idx) none
        = some (vals.getD idx 0)
    ∧ (∀ k ∈ lagsList,
        getColD (deriveAll sf (combinedOf file ds sc) (inferLoopCols file))
            (.lag targetCol k)
          = shiftCol k (getColD (combinedOf file ds sc) targetCol))
    ∧ (∀ w ∈ windowsList, ∀ s ∈ defaultStats,
        getColD (deriveAll sf (combinedOf file ds sc) (inferLoopCols file))
            (.roll targetCol s w)
          = rollingApply (statFn sf s) w (getColD (combinedOf file ds sc) targetCol))
    ∧ (idx + 1 < ds.length →
        (getColD (deriveAll sf (combinedOf file ds sc) (inferLoopCols file))
            (.lag targetCol 1)).getD (qs.length + idx + 1) none
          = some (vals.getD idx 0)) := by
  have htcol : hasCol file targetCol = true := hasCol_iff_mem_colsOf.mpr htc
  have hcomb := combinedOf_eq file qs ds sc hdate hd hlen hsort hscd
  have htlen : (getColD file targetCol).length = qs.length :=
    getColD_length_of_wf file targetCol qs.length htcol hlen
  have hcombt : getColD (combinedOf file ds sc) targetCol
      = getColD file targetCol ++ getColD (dfPred file ds sc) targetCol := by
    rw [hcomb, getColD_concat _ _ _ htcol]
  have hpredlen : (getColD (dfPred file ds sc) targetCol).length = ds.length := by
    rw [getColD_dfPred _ _ _ _ htcol]
    simp
  have ha : (getColD (combinedOf file ds sc) targetCol).getD (qs.length + idx) none
      = some (vals.getD idx 0) := by
    rw [hcombt, List.getD_append_right _ _ _ _ (by rw [htlen]; omega), htlen,
      Nat.add_sub_cancel_left, getColD_dfPred _ _ _ _ htcol,
      getD_range_map _ _ _ _ hidxd,
      synthRow_override _ _ _ _ _ _ _ hmem hnodup hidx htc]
  have hb : ∀ k ∈ lagsList,
      getColD (deriveAll sf (combinedOf file ds sc) (inferLoopCols file))
          (.lag targetCol k)
        = shiftCol k (getColD (combinedOf file ds sc) targetCol) := by
    intro k hk
    exact getColD_deriveAll_lag_base sf _ _ "saudi_production" k hk
      (List.mem_cons_self _ _)
  refine ⟨ha, hb, ?_, ?_⟩
  · intro w hw s hs
    exact getColD_deriveAll_roll_base sf _ _ "saudi_production" w s hw hs
      (List.mem_cons_self _ _)
  · intro h2
    have hclen : (getColD (combinedOf file ds sc) targetCol).length
        = qs.length + ds.length := by
      rw [hcombt, List.length_append, htlen, hpredlen]
    rw [hb 1 (by decide), shiftCol_getD 1 _ _ (by rw [hclen]; omega),
      if_neg (by omega), Nat.add_sub_cancel]
    exact ha

/-- Witness for C10: a one-row history, two requested dates, scenario
overriding the target at both positions. -/
theorem claim_C10_witness :
    (hasCol [(ColName.date, [some (0:ℚ)]),
        (ColName.base "saudi_production", [some (5:ℚ)])] ColName.date = true
      ∧ ([0] ++ [1, 2] : List ℚ).Pairwise (· ≤ ·)
      ∧ (0:Nat) < ([7, 8] : List ℚ).length ∧ (0:Nat) < ([1, 2] : List ℚ).length)
    ∧ (getColD
        (combinedOf [(ColName.date, [some (0:ℚ)]),
          (ColName.base "saudi_production", [some (5:ℚ)])] [1, 2]
          [(targetCol, [7, 8])])
        targetCol).getD (([0] : List ℚ).length + 0) none = some (([7, 8] : List ℚ).getD 0 0) :=
  ⟨⟨by decide, by decide, by decide, by decide⟩,
    (claim_C10 (fun _ => 0)
      [(ColName.date, [some (0:ℚ)]), (ColName.base "saudi_production", [some (5:ℚ)])]
      [0] [1, 2] [(targetCol, [7, 8])] [7, 8] 0
      (by decide) (by decide) (by decide) (by decide) (by decide) (by decide)
      (by decide) (by decide) (by decide) (by decide)).1⟩

/-! ### Non-missingness through the derive loop -/

theorem getD_mem_of_lt {α : Type} (l : List α) (i : Nat) (d : α) (h : i < l.length) :
    l.getD i d ∈ l := by
  rw [List.getD_eq_getElem _ _ h]
  exact List.getElem_mem h

theorem someFrom_mono {t t2 : Nat} {c : Col} (h : someFrom t c) (hle : t ≤ t2) :
    someFrom t2 c := fun i hi hlen => h i (le_trans hle hi) hlen

theorem someFrom_of_all {c : Col} (h : ∀ x ∈ c, x.isSome) : someFrom 0 c :=
  fun i _ hlen => h _ (getD_mem_of_lt c i none hlen)

theorem someFrom_shift {t : Nat} {c : Col} (h : someFrom t c) (k : Nat) :
    someFrom (t + k) (shiftCol k c) := by
  intro i hi hlen
  rw [shiftCol_length] at hlen
  rw [shiftCol_getD _ _ _ hlen, if_neg (by omega)]
  exact h (i - k) (by omega) (by omega)

theorem cellsSome?_isSome_of_all {l : List Cell} (h : ∀ x ∈ l, x.isSome) :
    ∃ vs, cellsSome? l = some vs := by
  induction l with
  | nil => exact ⟨[], rfl⟩
  | cons x t ih =>
    obtain ⟨vs, hvs⟩ := ih (fun y hy => h y (List.mem_cons_of_mem _ hy))
    cases x with
    | none => exact absurd (h none (List.mem_cons_self _ _)) (by simp)
    | some a => exact ⟨a :: vs, by simp [cellsSome?, hvs]⟩

theorem someFrom_rolling {t : Nat} {c : Col} (f : List ℚ → ℚ) (w : Nat) (hw : 1 ≤ w)
    (h : someFrom t c) : someFrom (t + w - 1) (rollingApply f w c) := by
  intro i hi hlen
  rw [rollingApply_length] at hlen
  rw [rollingApply_getD _ _ _ _ hlen, rollCell, if_neg (by omega)]
  have hall : ∀ x ∈ windowAt c w i, x.isSome := by
    intro x hx
    obtain ⟨j, hj, he⟩ := List.mem_iff_getElem.mp hx
    have hwlen : (windowAt c w i).length = w := windowAt_length c w i (by omega) hlen
    have hj2 : j < w := hwlen ▸ hj
    have hg := windowAt_getD c w i j (by omega) hj2
    rw [List.getD_eq_getElem _ none hj, he] at hg
    rw [hg]
    exact h (i + 1 - w + j) (by omega) (by omega)
  obtain ⟨vs, hvs⟩ := cellsSome?_isSome_of_all hall
  rw [hvs]
  simp

theorem tierOf_le_24 (c : ColName) : tierOf c ≤ 24 := by
  cases c with
  | date => simp [tierOf]
  | base s => simp [tierOf]
  | lag c2 k => cases c2 <;> simp [tierOf]
  | roll c2 s w => cases c2 <;> simp [tierOf]

theorem tier_lag (c : ColName) (k : Nat) (hc : colOrd1 c = true) (hk : k ≤ 12) :
    tierOf c + k ≤ tierOf (ColName.lag c k) := by
  cases c with
  | date => simp [tierOf]; omega
  | base s => simp [tierOf]; omega
  | lag c2 k2 =>
    cases c2 with
    | base s => simp [tierOf]; omega
    | date => simp [colOrd1] at hc
    | lag c3 k3 => simp [colOrd1] at hc
    | roll c3 s3 w3 => simp [colOrd1] at hc
  | roll c2 s2 w2 =>
    cases c2 with
    | base s => simp [tierOf]; omega
    | date => simp [colOrd1] at hc
    | lag c3 k3 => simp [colOrd1] at hc
    | roll c3 s3 w3 => simp [colOrd1] at hc

theorem tier_roll (c : ColName) (s : Stat) (w : Nat) (hc : colOrd1 c = true)
    (hw : w ≤ 12) : tierOf c + w - 1 ≤ tierOf (ColName.roll c s w) := by
  cases c with
  | date => simp [tierOf]; omega
  | base s2 => simp [tierOf]; omega
  | lag c2 k2 =>
    cases c2 with
    | base s2 => simp [tierOf]; omega
    | date => simp [colOrd1] at hc
    | lag c3 k3 => simp [colOrd1] at hc
    | roll c3 s3 w3 => simp [colOrd1] at hc
  | roll c2 s2 w2 =>
    cases c2 with
    | base s2 => simp [tierOf]; omega
    | date => simp [colOrd1] at hc
    | lag c3 k3 => simp [colOrd1] at hc
    | roll c3 s3 w3 => simp [colOrd1] at hc

theorem InvP_setCol {N : Nat} {df : DF} (h : InvP N df) (nm : ColName) (v : Col)
    (hvl : v.length = N) (hvs : someFrom (tierOf nm) v) : InvP N (setCol df nm v) := by
  intro p hp
  rcases mem_setCol hp with he | hm
  · rw [he]
    exact ⟨hvl, hvs⟩
  · exact h p hm

theorem InvP_getColD {N : Nat} {df : DF} (h : InvP N df) {nm : ColName}
    (hcol : hasCol df nm = true) :
    (getColD df nm).length = N ∧ someFrom (tierOf nm) (getColD df nm) := by
  obtain ⟨c, hc⟩ := Option.isSome_iff_exists.mp hcol
  have := h _ (getCol?_mem hc)
  rw [getColD, hc]
  exact this

theorem hasCol_setCol_mono {df : DF} {nm m : ColName} {v : Col}
    (h : hasCol df m = true) : hasCol (setCol df nm v) m = true := by
  by_cases he : m = nm
  · subst he
    exact hasCol_setCol_self df m v
  · rw [hasCol_setCol_ne df v he]
    exact h

theorem hasCol_add_lag_mono {c : ColName} (lags : List Nat) {m : ColName} :
    ∀ df : DF, hasCol df m = true → hasCol (add_lag_features df c lags) m = true := by
  induction lags with
  | nil => exact fun df h => h
  | cons k t ih =>
    intro df h
    rw [add_lag_features_cons]
    exact ih _ (hasCol_setCol_mono h)

theorem hasCol_roll_one_mono (sf : List ℚ → ℚ) {c : ColName} (w : Nat) (stats : List Stat)
    {m : ColName} :
    ∀ df : DF, hasCol df m = true → hasCol (roll_one sf df c w stats) m = true := by
  induction stats with
  | nil => exact fun df h => h
  | cons s t ih =>
    intro df h
    rw [roll_one_cons]
    exact ih _ (hasCol_setCol_mono h)

theorem hasCol_add_rolling_mono (sf : List ℚ → ℚ) {c : ColName} (windows : List Nat)
    (stats : List Stat) {m : ColName} :
    ∀ df : DF, hasCol df m = true → hasCol (add_rolling_features sf df c windows stats) m = true := by
  induction windows with
  | nil => exact fun df h => h
  | cons w t ih =>
    intro df h
    rw [add_rolling_features_cons]
    exact ih _ (hasCol_roll_one_mono sf w stats df h)

theorem hasCol_stepVar_mono (sf : List ℚ → ℚ) {c m : ColName} {df : DF}
    (h : hasCol df m = true) : hasCol (stepVar sf df c) m = true := by
  rw [stepVar]
  exact hasCol_add_rolling_mono sf windowsList defaultStats _
    (hasCol_add_lag_mono lagsList df h)

theorem hasCol_deriveAll_mono (sf : List ℚ → ℚ) (l : List ColName) {m : ColName} :
    ∀ df : DF, hasCol df m = true → hasCol (deriveAll sf df l) m = true := by
  induction l with
  | nil => exact fun df h => h
  | cons c t ih =>
    intro df h
    rw [deriveAll_cons]
    exact ih _ (hasCol_stepVar_mono sf h)

theorem InvP_add_lag {N : Nat} {c : ColName} (hc : colOrd1 c = true) (lags : List Nat) :
    ∀ df : DF, InvP N df → hasCol df c = true → (∀ k ∈ lags, k ≤ 12) →
      InvP N (add_lag_features df c lags) := by
  induction lags with
  | nil => exact fun df h _ _ => h
  | cons k t ih =>
    intro df h hcol hks
    rw [add_lag_features_cons]
    have hg := InvP_getColD h hcol
    exact ih _
      (InvP_setCol h _ _ (by rw [shiftCol_length]; exact hg.1)
        (someFrom_mono (someFrom_shift hg.2 k)
          (tier_lag c k hc (hks k (List.mem_cons_self _ _)))))
      (hasCol_setCol_mono hcol)
      (fun j hj => hks j (List.mem_cons_of_mem _ hj))

theorem InvP_roll_one {N : Nat} {c : ColName} (hc : colOrd1 c = true) (sf : List ℚ → ℚ)
    (w : Nat) (hw1 : 1 ≤ w) (hw : w ≤ 12) (stats : List Stat) :
    ∀ df : DF, InvP N df → hasCol df c = true → InvP N (roll_one sf df c w stats) := by
  induction stats with
  | nil => exact fun df h _ => h
  | cons s t ih =>
    intro df h hcol
    rw [roll_one_cons]
    have hg := InvP_getColD h hcol
    exact ih _
      (InvP_setCol h _ _ (by rw [rollingApply_length]; exact hg.1)
        (someFrom_mono (someFrom_rolling _ w hw1 hg.2) (tier_roll c s w hc hw)))
      (hasCol_setCol_mono hcol)

theorem InvP_add_rolling {N : Nat} {c : ColName} (hc : colOrd1 c = true) (sf : List ℚ → ℚ)
    (windows : List Nat) (stats : List Stat) :
    ∀ df : DF, InvP N df → hasCol df c = true → (∀ w ∈ windows, 1 ≤ w ∧ w ≤ 12) →
      InvP N (add_rolling_features sf df c windows stats) := by
  induction windows with
  | nil => exact fun df h _ _ => h
  | cons w t ih =>
    intro df h hcol hws
    rw [add_rolling_features_cons]
    exact ih _
      (InvP_roll_one hc sf w (hws w (List.mem_cons_self _ _)).1
        (hws w (List.mem_cons_self _ _)).2 stats df h hcol)
      (hasCol_roll_one_mono sf w stats df hcol)
      (fun j hj => hws j (List.mem_cons_of_mem _ hj))

theorem InvP_stepVar {N : Nat} (sf : List ℚ → ℚ) {c : ColName} (hc : colOrd1 c = true)
    {df : DF} (h : InvP N df) (hcol : hasCol df c = true) : InvP N (stepVar sf df c) := by
  rw [stepVar]
  exact InvP_add_rolling hc sf windowsList defaultStats _
    (InvP_add_lag hc lagsList df h hcol (by decide))
    (hasCol_add_lag_mono lagsList df hcol)
    (by decide)

theorem InvP_deriveAll {N : Nat} (sf : List ℚ → ℚ) (l : List ColName) :
    ∀ df : DF, InvP N df → (∀ c ∈ l, colOrd1 c = true ∧ hasCol df c = true) →
      InvP N (deriveAll sf df l) := by
  induction l with
  | nil => exact fun df h _ => h
  | cons c t ih =>
    intro df h hl
    rw [deriveAll_cons]
    exact ih _
      (InvP_stepVar sf (hl c (List.mem_cons_self _ _)).1 h (hl c (List.mem_cons_self _ _)).2)
      (fun c2 hc2 => ⟨(hl c2 (List.mem_cons_of_mem _ hc2)).1,
        hasCol_stepVar_mono sf (hl c2 (List.mem_cons_of_mem _ hc2)).2⟩)

theorem setCol_ne_nil (df : DF) (n : ColName) (c : Col) : setCol df n c ≠ [] := by
  cases df with
  | nil => simp [setCol]
  | cons p t =>
    rw [setCol]
    by_cases hp : p.1 = n
    · simp [hp]
    · simp [hp]

theorem add_lag_ne_nil {c : ColName} (lags : List Nat) :
    ∀ df : DF, df ≠ [] → add_lag_features df c lags ≠ [] := by
  induction lags with
  | nil => exact fun df h => h
  | cons k t ih =>
    intro df h
    rw [add_lag_features_cons]
    exact ih _ (setCol_ne_nil _ _ _)

theorem roll_one_ne_nil (sf : List ℚ → ℚ) {c : ColName} (w : Nat) (stats : List Stat) :
    ∀ df : DF, df ≠ [] → roll_one sf df c w stats ≠ [] := by
  induction stats with
  | nil => exact fun df h => h
  | cons s t ih =>
    intro df h
    rw [roll_one_cons]
    exact ih _ (setCol_ne_nil _ _ _)

theorem add_rolling_ne_nil (sf : List ℚ → ℚ) {c : ColName} (windows : List Nat)
    (stats : List Stat) :
    ∀ df : DF, df ≠ [] → add_rolling_features sf df c windows stats ≠ [] := by
  induction windows with
  | nil => exact fun df h => h
  | cons w t ih =>
    intro df h
    rw [add_rolling_features_cons]
    exact ih _ (roll_one_ne_nil sf w stats df h)

theorem deriveAll_ne_nil (sf : List ℚ → ℚ) (l : List ColName) :
    ∀ df : DF, df ≠ [] → deriveAll sf df l ≠ [] := by
  induction l with
  | nil => exact fun df h => h
  | cons c t ih =>
    intro df h
    rw [deriveAll_cons]
    refine ih _ ?_
    rw [stepVar]
    exact add_rolling_ne_nil sf windowsList defaultStats _ (add_lag_ne_nil lagsList df h)

theorem nrows_eq_of_InvP {N : Nat} {df : DF} (h : InvP N df) (hne : df ≠ []) :
    nrows df = N := by
  cases df with
  | nil => exact absurd rfl hne
  | cons p t => exact (h p (List.mem_cons_self _ _)).1

/-! ### Row selection of the preparer (claim C2) -/

theorem hasCol_map_eq (df : DF) (g : ColName × Col → Col) (n : ColName) :
    hasCol (df.map (fun p => (p.1, g p))) n = hasCol df n := by
  rw [hasCol, getCol?_map_eq, hasCol]
  cases getCol? df n <;> rfl

theorem getColD_map_eq_of_hasCol (df : DF) (g : ColName × Col → Col) (n : ColName)
    (h : hasCol df n = true) :
    getColD (df.map (fun p => (p.1, g p))) n = g (n, getColD df n) := by
  obtain ⟨c, hc⟩ := Option.isSome_iff_exists.mp h
  rw [getColD, getCol?_map_eq, hc, getColD, hc]
  rfl

theorem hasCol_concat (a b : DF) (n : ColName) :
    hasCol (concatDF a b) n = hasCol a n := hasCol_map_eq a _ n

theorem applyIdx_length (c : Col) (idx : List Nat) : (applyIdx c idx).length = idx.length := by
  simp [applyIdx]

theorem applyIdx_append (c : Col) (a b : List Nat) :
    applyIdx c (a ++ b) = applyIdx c a ++ applyIdx c b := List.map_append _ a b

theorem nrows_dropna {df : DF} (h : df ≠ []) :
    nrows (dropna df) = (keepRowIdx df).length := by
  cases df with
  | nil => exact absurd rfl h
  | cons p t => simp [dropna, nrows, applyIdx]

theorem getD_map_some (l : List ℚ) (j : Nat) (h : j < l.length) :
    (l.map some).getD j none = some (l.getD j 0) := by
  rw [List.getD_eq_getElem _ _ (by simpa using h), List.getElem_map,
    List.getD_eq_getElem _ _ h]

theorem synthFold_isSome (base : ColName → Cell) (cols : List ColName) (sc : Scenario)
    (idx : Nat) (n : ColName) (h : (base n).isSome = true) :
    ((sc.foldl
        (fun r p =>
          if idx < p.2.length ∧ p.1 ∈ cols then
            fun m => if m = p.1 then some (p.2.getD idx 0) else r m
          else r)
        base) n).isSome = true := by
  induction sc generalizing base with
  | nil => exact h
  | cons p t ih =>
    rw [List.foldl_cons]
    refine ih _ ?_
    by_cases hc : idx < p.2.length ∧ p.1 ∈ cols
    · rw [if_pos hc]
      by_cases hn : n = p.1
      · simp [hn]
      · simpa [hn] using h
    · rwa [if_neg hc]

theorem synthRow_isSome (template : ColName → Cell) (cols : List ColName) (sc : Scenario)
    (idx : Nat) (d : ℚ) (n : ColName) (h : n = ColName.date ∨ (template n).isSome = true) :
    (synthRow template cols sc idx d n).isSome = true := by
  rw [synthRow]
  refine synthFold_isSome _ _ _ _ _ ?_
  rcases h with h | h
  · simp [h]
  · by_cases hn : n = ColName.date
    · simp [hn]
    · simpa [hn] using h

/-- C2 amended: when the requested dates are pairwise distinct, strictly
increasing and strictly later than every history date, the history is a
well-formed persisted feature matrix (date-sorted, fully populated, columns
of first order, target present, some other base variable present) with at
least 24 rows, and the scenario does not override the date column, then
`Forecaster.predict` returns exactly one prediction per requested date, in
request order: the selected prediction rows have exactly the requested dates
in order.  (The unqualified claim is refuted by
`claim_C2_counterexample`.) -/
theorem claim_C2_amended (sf : List ℚ → ℚ) (model : List Cell → ℚ) (file : DF)
    (qs ds : List ℚ) (sc : Scenario)
    (h0 : hasCol file ColName.date = true)
    (h1 : getColD file .date = qs.map some)
    (h2 : ∀ p ∈ file, p.2.length = qs.length)
    (h3 : qs.Pairwise (· ≤ ·))
    (h4 : ∀ p ∈ file, ∀ x ∈ p.2, x.isSome = true)
    (h5 : ∀ p ∈ file, colOrd1 p.1 = true)
    (h6 : targetCol ∈ colsOf file)
    (h7 : 24 ≤ qs.length)
    (h8 : ∀ p ∈ sc, p.1 ≠ ColName.date)
    (h9 : ∃ v, ColName.base v ∈ colsOf file ∧ ColName.base v ≠ targetCol)
    (h10 : ∀ a ∈ qs, ∀ b ∈ ds, a < b)
    (h11 : ds.Pairwise (· < ·)) :
    (forecaster_predict sf model file ds sc none).length = ds.length
    ∧ getColD (predRowsOf sf file ds sc) .date = ds.map some := by
  have hsortqd : (qs ++ ds).Pairwise (· ≤ ·) := by
    rw [List.pairwise_append]
    exact ⟨h3, h11.imp (fun hab => le_of_lt hab), fun a ha b hb => le_of_lt (h10 a ha b hb)⟩
  have hcombE : combinedOf file ds sc = concatDF file (dfPred file ds sc) :=
    combinedOf_eq file qs ds sc h0 h1 h2 hsortqd h8
  have hfilene : file ≠ [] := by
    intro he
    rw [he] at h6
    cases h6
  have hcombne : concatDF file (dfPred file ds sc) ≠ [] := by
    intro he
    exact hfilene (List.map_eq_nil_iff.mp he)
  have hlenc : ∀ p ∈ concatDF file (dfPred file ds sc),
      p.2.length = qs.length + ds.length := by
    intro p hp
    rw [concatDF] at hp
    obtain ⟨q, hq, he⟩ := List.mem_map.mp hp
    rw [← he]
    show (q.2 ++ getColD (dfPred file ds sc) q.1).length = _
    rw [List.length_append, h2 q hq, getColD_dfPred _ _ _ _ (hasCol_of_mem hq)]
    simp
  have hnrfile : nrows file = qs.length := by
    cases hf : file with
    | nil => exact absurd hf hfilene
    | cons p0 t0 => exact h2 p0 (hf ▸ List.mem_cons_self _ _)
  have hsomec : ∀ p ∈ concatDF file (dfPred file ds sc), ∀ x ∈ p.2, x.isSome = true := by
    intro p hp x hx
    rw [concatDF] at hp
    obtain ⟨q, hq, he⟩ := List.mem_map.mp hp
    rw [← he] at hx
    rcases List.mem_append.mp hx with hxa | hxb
    · exact h4 q hq x hxa
    · rw [getColD_dfPred _ _ _ _ (hasCol_of_mem hq)] at hxb
      obtain ⟨idx, hidx, hxe⟩ := List.mem_map.mp hxb
      rw [← hxe]
      refine synthRow_isSome _ _ _ _ _ _ ?_
      by_cases hqd : q.1 = ColName.date
      · exact Or.inl hqd
      · refine Or.inr ?_
        rw [lastRow, rowAt]
        obtain ⟨c0, hc0⟩ := Option.isSome_iff_exists.mp (hasCol_of_mem hq)
        have hc0mem := getCol?_mem hc0
        have hc0len : c0.length = qs.length := h2 _ hc0mem
        rw [getColD, hc0]
        refine h4 _ hc0mem _ (getD_mem_of_lt _ _ _ ?_)
        rw [hc0len, hnrfile]
        omega
  have hInvc : InvP (qs.length + ds.length) (concatDF file (dfPred file ds sc)) := by
    intro p hp
    exact ⟨hlenc p hp, someFrom_mono (someFrom_of_all (hsomec p hp)) (Nat.zero_le _)⟩
  have hloop : ∀ c ∈ inferLoopCols file,
      colOrd1 c = true ∧ hasCol (concatDF file (dfPred file ds sc)) c = true := by
    intro c hc
    rcases List.mem_cons.mp hc with he | hmem
    · subst he
      exact ⟨rfl, by rw [hasCol_concat]; exact hasCol_iff_mem_colsOf.mpr h6⟩
    · have hcm := List.mem_filter.mp hmem
      have hcc : c ∈ colsOf file := hcm.1
      obtain ⟨p, hp, hpe⟩ := List.mem_map.mp hcc
      exact ⟨hpe ▸ h5 p hp, by rw [hasCol_concat]; exact hasCol_iff_mem_colsOf.mpr hcc⟩
  have hInvd : InvP (qs.length + ds.length)
      (deriveAll sf (concatDF file (dfPred file ds sc)) (inferLoopCols file)) :=
    InvP_deriveAll sf _ _ hInvc hloop
  have hdne : deriveAll sf (concatDF file (dfPred file ds sc)) (inferLoopCols file) ≠ [] :=
    deriveAll_ne_nil sf _ _ hcombne
  have hnrd : nrows (deriveAll sf (concatDF file (dfPred file ds sc)) (inferLoopCols file))
      = qs.length + ds.length := nrows_eq_of_InvP hInvd hdne
  have hdcomb : getColD (concatDF file (dfPred file ds sc)) .date = (qs ++ ds).map some := by
    rw [getColD_concat _ _ _ h0, h1, getColD_dfPred _ _ _ _ h0]
    have hfn : (fun idx => synthRow (lastRow file) (colsOf file) sc idx (ds.getD idx 0)
        ColName.date) = fun idx => (some (ds.getD idx 0) : Cell) :=
      funext fun idx => synthRow_date _ _ _ _ _ h8
    rw [hfn, range_map_some, List.map_append]
  have hdderived :
      getColD (deriveAll sf (concatDF file (dfPred file ds sc)) (inferLoopCols file)) .date
        = (qs ++ ds).map some := by
    rw [getColD_deriveAll_date, hdcomb]
  have hdateder :
      hasCol (deriveAll sf (concatDF file (dfPred file ds sc)) (inferLoopCols file))
        ColName.date = true :=
    hasCol_deriveAll_mono sf _ _ (by rw [hasCol_concat]; exact h0)
  have hkeep : keepRowIdx (deriveAll sf (concatDF file (dfPred file ds sc)) (inferLoopCols file))
      = (List.range qs.length).filter
          (fun i => (deriveAll sf (concatDF file (dfPred file ds sc))
            (inferLoopCols file)).all (fun p => (p.2.getD i none).isSome))
        ++ (List.range ds.length).map (qs.length + ·) := by
    rw [keepRowIdx, hnrd, List.range_add, List.filter_append]
    congr 1
    rw [List.filter_eq_self]
    intro a ha
    obtain ⟨j, hj, he⟩ := List.mem_map.mp ha
    rw [← he, List.all_eq_true]
    intro p hp
    have hi := hInvd p hp
    have hjm : j < ds.length := List.mem_range.mp hj
    refine hi.2 (qs.length + j) ?_ ?_
    · exact le_trans (le_trans (tierOf_le_24 p.1) h7) (Nat.le_add_right _ _)
    · rw [hi.1]
      omega
  have hkd2 : getColD (dropna (deriveAll sf (concatDF file (dfPred file ds sc))
      (inferLoopCols file))) .date
      = applyIdx ((qs ++ ds).map some)
          ((List.range qs.length).filter
            (fun i => (deriveAll sf (concatDF file (dfPred file ds sc))
              (inferLoopCols file)).all (fun p => (p.2.getD i none).isSome)))
        ++ ds.map some := by
    rw [dropna, getColD_map_eq_of_hasCol _ _ _ hdateder, hdderived, hkeep, applyIdx_append]
    congr 1
    rw [applyIdx, List.map_map]
    refine List.ext_getElem (by simp) (fun j hj1 hj2 => ?_)
    simp only [List.getElem_map, List.getElem_range, Function.comp]
    rw [List.length_map, List.length_range] at hj1
    rw [List.map_append, List.getD_append_right _ _ _ _ (by simp),
      show qs.length + j - (qs.map some).length = j by simp,
      getD_map_some ds j hj1]
    simp [List.getD_eq_getElem ds 0 hj1, List.getElem?_eq_getElem hj1]
  have hlowlemma : ∀ a, a < ((List.range qs.length).filter
      (fun i => (deriveAll sf (concatDF file (dfPred file ds sc))
        (inferLoopCols file)).all (fun p => (p.2.getD i none).isSome))).length →
      ∃ h ∈ qs, (applyIdx ((qs ++ ds).map some)
        ((List.range qs.length).filter
          (fun i => (deriveAll sf (concatDF file (dfPred file ds sc))
            (inferLoopCols file)).all (fun p => (p.2.getD i none).isSome)))).getD a none
        = some h := by
    intro a ha
    set low := (List.range qs.length).filter
      (fun i => (deriveAll sf (concatDF file (dfPred file ds sc))
        (inferLoopCols file)).all (fun p => (p.2.getD i none).isSome)) with hlowdef
    have hjl : low.getD a 0 ∈ low := getD_mem_of_lt _ _ _ ha
    have hjr : low.getD a 0 ∈ List.range qs.length := List.mem_of_mem_filter hjl
    have hjn : low.getD a 0 < qs.length := List.mem_range.mp hjr
    refine ⟨qs.getD (low.getD a 0) 0, getD_mem_of_lt _ _ _ hjn, ?_⟩
    rw [applyIdx, List.getD_eq_getElem _ _ (by simpa [applyIdx] using ha), List.getElem_map,
      ← List.getD_eq_getElem low 0 ha, List.map_append,
      List.getD_append _ _ _ _ (by simpa using hjn), getD_map_some qs _ hjn]
  have hkdhigh : ∀ j, j < ds.length →
      (getColD (dropna (deriveAll sf (concatDF file (dfPred file ds sc))
        (inferLoopCols file))) .date).getD
        (((List.range qs.length).filter
          (fun i => (deriveAll sf (concatDF file (dfPred file ds sc))
            (inferLoopCols file)).all (fun p => (p.2.getD i none).isSome))).length + j) none
      = some (ds.getD j 0) := by
    intro j hj
    rw [hkd2, List.getD_append_right _ _ _ _ (by rw [applyIdx_length]; omega),
      show (((List.range qs.length).filter
        (fun i => (deriveAll sf (concatDF file (dfPred file ds sc))
          (inferLoopCols file)).all (fun p => (p.2.getD i none).isSome))).length + j)
          - (applyIdx ((qs ++ ds).map some)
            ((List.range qs.length).filter
              (fun i => (deriveAll sf (concatDF file (dfPred file ds sc))
                (inferLoopCols file)).all (fun p => (p.2.getD i none).isSome)))).length = j
        by rw [applyIdx_length]; omega,
      getD_map_some ds j hj]
  have hnrdrop : nrows (dropna (deriveAll sf (concatDF file (dfPred file ds sc))
      (inferLoopCols file)))
      = ((List.range qs.length).filter
          (fun i => (deriveAll sf (concatDF file (dfPred file ds sc))
            (inferLoopCols file)).all (fun p => (p.2.getD i none).isSome))).length
        + ds.length := by
    rw [nrows_dropna hdne, hkeep]
    simp
  have hsel : selIdx (dropna (deriveAll sf (concatDF file (dfPred file ds sc))
      (inferLoopCols file))) ds
      = (List.range ds.length).map
          (((List.range qs.length).filter
            (fun i => (deriveAll sf (concatDF file (dfPred file ds sc))
              (inferLoopCols file)).all (fun p => (p.2.getD i none).isSome))).length + ·) := by
    rw [selIdx, hnrdrop, List.range_add, List.filter_append]
    have hpart1 : (List.range (((List.range qs.length).filter
        (fun i => (deriveAll sf (concatDF file (dfPred file ds sc))
          (inferLoopCols file)).all (fun p => (p.2.getD i none).isSome))).length)).filter
        (fun i => ds.any (fun q =>
          (getColD (dropna (deriveAll sf (concatDF file (dfPred file ds sc))
            (inferLoopCols file))) .date).getD i none == some q)) = [] := by
      rw [List.filter_eq_nil_iff]
      intro a ha hQ
      have han := List.mem_range.mp ha
      obtain ⟨h, hhq, hhe⟩ := hlowlemma a han
      have hkda : (getColD (dropna (deriveAll sf (concatDF file (dfPred file ds sc))
          (inferLoopCols file))) .date).getD a none = some h := by
        rw [hkd2, List.getD_append _ _ _ _ (by rw [applyIdx_length]; exact han)]
        exact hhe
      rw [hkda, List.any_eq_true] at hQ
      obtain ⟨q, hq, hbe⟩ := hQ
      rw [beq_iff_eq] at hbe
      have heq : h = q := Option.some.inj hbe
      exact absurd (heq ▸ h10 h hhq q hq) (lt_irrefl q)
    rw [hpart1, List.nil_append, List.filter_eq_self]
    intro a ha
    obtain ⟨j, hj, he⟩ := List.mem_map.mp ha
    have hjm : j < ds.length := List.mem_range.mp hj
    rw [← he, List.any_eq_true]
    refine ⟨ds.getD j 0, getD_mem_of_lt _ _ _ hjm, ?_⟩
    rw [hkdhigh j hjm]
    simp
  have hpreddate : getColD (predRowsOf sf file ds sc) .date = ds.map some := by
    have hdatedrop : hasCol (dropna (deriveAll sf (concatDF file (dfPred file ds sc))
        (inferLoopCols file))) ColName.date = true := by
      rw [dropna, hasCol_map_eq]
      exact hdateder
    rw [predRowsOf, hcombE, filterDates, getColD_map_eq_of_hasCol _ _ _ hdatedrop, hsel]
    rw [applyIdx, List.map_map]
    refine List.ext_getElem (by simp) (fun j hj1 hj2 => ?_)
    rw [List.length_map, List.length_range] at hj1
    simp only [List.getElem_map, List.getElem_range, Function.comp]
    rw [hkdhigh j hj1, List.getD_eq_getElem ds 0 hj1]
  have hnpred : ∀ p ∈ predRowsOf sf file ds sc, p.2.length = ds.length := by
    intro p hp
    rw [predRowsOf, hcombE, filterDates] at hp
    obtain ⟨q, hq, he⟩ := List.mem_map.mp hp
    rw [← he]
    show (applyIdx q.2 _).length = _
    rw [applyIdx_length, hsel]
    simp
  obtain ⟨v, hvmem, hvne⟩ := h9
  have hvpred : hasCol (predRowsOf sf file ds sc) (ColName.base v) = true := by
    rw [predRowsOf, hcombE, filterDates, hasCol_map_eq, dropna, hasCol_map_eq]
    exact hasCol_deriveAll_mono sf _ _
      (by rw [hasCol_concat]; exact hasCol_iff_mem_colsOf.mpr hvmem)
  obtain ⟨cv, hcv⟩ := Option.isSome_iff_exists.mp hvpred
  have hcvmem := getCol?_mem hcv
  have hfiltmem : (ColName.base v, cv) ∈ projectX none (predRowsOf sf file ds sc) := by
    rw [projectX]
    refine List.mem_filter.mpr ⟨hcvmem, ?_⟩
    simp only [Bool.not_eq_true']
    rw [Bool.or_eq_false_iff, Bool.or_eq_false_iff]
    refine ⟨⟨by simp, ?_⟩, ?_⟩
    · exact beq_eq_false_iff_ne.mpr hvne
    · exact beq_eq_false_iff_ne.mpr hvne
  have hXrows : nrows (projectX none (predRowsOf sf file ds sc)) = ds.length := by
    cases hX : projectX none (predRowsOf sf file ds sc) with
    | nil =>
      rw [hX] at hfiltmem
      cases hfiltmem
    | cons p0 t0 =>
      have hp0 : p0 ∈ projectX none (predRowsOf sf file ds sc) := by
        rw [hX]
        exact List.mem_cons_self _ _
      rw [projectX] at hp0
      exact hnpred p0 (List.mem_of_mem_filter hp0)
  refine ⟨?_, hpreddate⟩
  show ((List.range (nrows (prepare_inputs sf file ds sc none))).map _).length = _
  rw [List.length_map, List.length_range, prepare_inputs, hXrows]

/-- C2 fails as stated: requesting the single date 12 — a date that is also
the last history row's date — yields two predictions, because
`combined["date"].isin(dates)` selects every retained combined row whose
date matches, history rows included.  So `Forecaster.predict` does not
return exactly one prediction per requested date. -/
theorem claim_C2_counterexample :
    (forecaster_predict (fun _ => 0) (fun _ => 0) histC2cx [12] [] none).length = 2
    ∧ ([12] : List ℚ).length = 1
    ∧ ¬((forecaster_predict (fun _ => 0) (fun _ => 0) histC2cx [12] [] none).length
        = ([12] : List ℚ).length) := by decide

/-- Witness for the amended claim C2 on a 24-row history with two requested
dates strictly beyond the history. -/
theorem claim_C2_witness :
    (24 ≤ ([(0:ℚ), (1:ℚ), (2:ℚ), (3:ℚ), (4:ℚ), (5:ℚ), (6:ℚ), (7:ℚ), (8:ℚ), (9:ℚ), (10:ℚ), (11:ℚ), (12:ℚ), (13:ℚ), (14:ℚ), (15:ℚ), (16:ℚ), (17:ℚ), (18:ℚ), (19:ℚ), (20:ℚ), (21:ℚ), (22:ℚ), (23:ℚ)] : List ℚ).length
      ∧ (∀ a ∈ ([(0:ℚ), (1:ℚ), (2:ℚ), (3:ℚ), (4:ℚ), (5:ℚ), (6:ℚ), (7:ℚ), (8:ℚ), (9:ℚ), (10:ℚ), (11:ℚ), (12:ℚ), (13:ℚ), (14:ℚ), (15:ℚ), (16:ℚ), (17:ℚ), (18:ℚ), (19:ℚ), (20:ℚ), (21:ℚ), (22:ℚ), (23:ℚ)] : List ℚ), ∀ b ∈ ([24, 25] : List ℚ), a < b))
    ∧ (forecaster_predict (fun _ => 0) (fun _ => 0) histC2wit [24, 25] [] none).length
        = ([24, 25] : List ℚ).length :=
  ⟨⟨by decide, by decide⟩,
    (claim_C2_amended (fun _ => 0) (fun _ => 0) histC2wit [(0:ℚ), (1:ℚ), (2:ℚ), (3:ℚ), (4:ℚ), (5:ℚ), (6:ℚ), (7:ℚ), (8:ℚ), (9:ℚ), (10:ℚ), (11:ℚ), (12:ℚ), (13:ℚ), (14:ℚ), (15:ℚ), (16:ℚ), (17:ℚ), (18:ℚ), (19:ℚ), (20:ℚ), (21:ℚ), (22:ℚ), (23:ℚ)] [24, 25] []
      (by decide) (by decide) (by decide) (by decide) (by decide) (by decide)
      (by decide) (by decide) (by decide)
      ⟨"brent_price", by decide, by decide⟩
      (by decide) (by decide)).1⟩

/-! ### Sortedness of `sortBy` and the dedup helpers (builder) -/

theorem insertBy_subset {α : Type} (le : α → α → Bool) (x : α) (acc : List α) :
    ∀ z ∈ insertBy le x acc, z = x ∨ z ∈ acc := by
  induction acc with
  | nil => intro z hz; exact Or.inl (List.mem_singleton.mp hz)
  | cons y t ih =>
    intro z hz
    rw [insertBy] at hz
    by_cases hyx : le y x = true
    · rw [if_pos hyx] at hz
      rcases List.mem_cons.mp hz with he | hz2
      · exact Or.inr (he ▸ List.mem_cons_self _ _)
      · rcases ih z hz2 with he | hm
        · exact Or.inl he
        · exact Or.inr (List.mem_cons_of_mem _ hm)
    · rw [if_neg hyx] at hz
      rcases List.mem_cons.mp hz with he | hz2
      · exact Or.inl he
      · exact Or.inr hz2

theorem insertBy_pairwise {α : Type} (le : α → α → Bool)
    (htot : ∀ a b, le a b = true ∨ le b a = true)
    (htrans : ∀ a b c, le a b = true → le b c = true → le a c = true)
    (x : α) (acc : List α) (h : acc.Pairwise (fun a b => le a b = true)) :
    (insertBy le x acc).Pairwise (fun a b => le a b = true) := by
  induction acc with
  | nil => simp [insertBy]
  | cons y t ih =>
    rw [insertBy]
    rw [List.pairwise_cons] at h
    by_cases hyx : le y x = true
    · rw [if_pos hyx]
      rw [List.pairwise_cons]
      refine ⟨fun z hz => ?_, ih h.2⟩
      rcases insertBy_subset le x t z hz with he | hm
      · exact he ▸ hyx
      · exact h.1 z hm
    · rw [if_neg hyx]
      have hxy : le x y = true := by
        rcases htot x y with h1 | h1
        · exact h1
        · exact absurd h1 hyx
      rw [List.pairwise_cons]
      refine ⟨fun z hz => ?_, List.pairwise_cons.mpr h⟩
      rcases List.mem_cons.mp hz with he | hm
      · exact he ▸ hxy
      · exact htrans x y z hxy (h.1 z hm)

theorem sortBy_pairwise {α : Type} (le : α → α → Bool)
    (htot : ∀ a b, le a b = true ∨ le b a = true)
    (htrans : ∀ a b c, le a b = true → le b c = true → le a c = true)
    (l : List α) : (sortBy le l).Pairwise (fun a b => le a b = true) := by
  rw [sortBy]
  have hgen : ∀ acc, acc.Pairwise (fun a b => le a b = true) →
      (l.foldl (fun a x => insertBy le x a) acc).Pairwise (fun a b => le a b = true) := by
    induction l with
    | nil => exact fun acc h => h
    | cons x t ih =>
      intro acc h
      rw [List.foldl_cons]
      exact ih _ (insertBy_pairwise le htot htrans x acc h)
  exact hgen [] (by simp)

theorem sortBy_subset {α : Type} (le : α → α → Bool) (l : List α) :
    ∀ z ∈ sortBy le l, z ∈ l := by
  have hgen : ∀ l2 acc : List α,
      ∀ z ∈ l2.foldl (fun a x => insertBy le x a) acc, z ∈ acc ∨ z ∈ l2 := by
    intro l2
    induction l2 with
    | nil => exact fun acc z hz => Or.inl hz
    | cons x t ih =>
      intro acc z hz
      rw [List.foldl_cons] at hz
      rcases ih _ z hz with hacc | ht
      · rcases insertBy_subset le x acc z hacc with he | hm
        · exact Or.inr (he ▸ List.mem_cons_self _ _)
        · exact Or.inl hm
      · exact Or.inr (List.mem_cons_of_mem _ ht)
  intro z hz
  rcases hgen l [] z hz with h | h
  · cases h
  · exact h

theorem dedupAdj_subset : ∀ l : List ℤ, ∀ z ∈ dedupAdj l, z ∈ l := by
  intro l
  induction l with
  | nil => intro z hz; cases hz
  | cons x t ih =>
    cases ht : t with
    | nil => intro z hz; rw [dedupAdj] at hz; exact hz
    | cons y t2 =>
      subst ht
      intro z hz
      rw [dedupAdj] at hz
      by_cases hxy : (x == y) = true
      · rw [if_pos hxy] at hz
        exact List.mem_cons_of_mem _ (ih z hz)
      · rw [if_neg hxy] at hz
        rcases List.mem_cons.mp hz with he | hm
        · exact he ▸ List.mem_cons_self _ _
        · exact List.mem_cons_of_mem _ (ih z hm)

theorem dedupAdj_pairwise_lt : ∀ l : List ℤ, l.Pairwise (· ≤ ·) →
    (dedupAdj l).Pairwise (· < ·) := by
  intro l
  induction l with
  | nil => intro _; simp [dedupAdj]
  | cons x t ih =>
    cases ht : t with
    | nil => intro _; rw [dedupAdj]; simp
    | cons y t2 =>
      subst ht
      intro h
      rw [List.pairwise_cons] at h
      rw [dedupAdj]
      by_cases hxy : (x == y) = true
      · rw [if_pos hxy]
        exact ih h.2
      · rw [if_neg hxy]
        rw [List.pairwise_cons]
        refine ⟨fun z hz => ?_, ih h.2⟩
        have hzm : z ∈ y :: t2 := dedupAdj_subset _ z hz
        have hxz : x ≤ z := h.1 z hzm
        have hxyne : x ≠ y := by simpa using hxy
        rcases List.mem_cons.mp hzm with he | hm
        · exact lt_of_le_of_ne (he ▸ hxz) (he ▸ hxyne)
        · have hyz : y ≤ z := (List.pairwise_cons.mp h.2).1 z hm
          exact lt_of_lt_of_le (lt_of_le_of_ne (h.1 y (List.mem_cons_self _ _)) hxyne) hyz

theorem dedupSortInt_pairwise_lt (l : List ℤ) : (dedupSortInt l).Pairwise (· < ·) := by
  rw [dedupSortInt]
  refine dedupAdj_pairwise_lt _ ?_
  have := sortBy_pairwise (fun a b : ℤ => decide (a ≤ b))
    (fun a b => by rcases le_total a b with h | h
                   · exact Or.inl (decide_eq_true h)
                   · exact Or.inr (decide_eq_true h))
    (fun a b c h1 h2 => decide_eq_true (le_trans (of_decide_eq_true h1) (of_decide_eq_true h2)))
    l
  exact this.imp (fun h => of_decide_eq_true h)

/-! ### Dates through the builder merges -/

theorem filter_key_len {r : List MRow} (h : (r.map Prod.fst).Nodup) (d : ℤ) :
    (r.filter (fun b => b.1 == d)).length ≤ 1 := by
  induction r with
  | nil => simp
  | cons b t ih =>
    rw [List.map_cons, List.nodup_cons] at h
    rw [List.filter_cons]
    by_cases hb : (b.1 == d) = true
    · rw [if_pos hb]
      have ht0 : t.filter (fun b2 => b2.1 == d) = [] := by
        rw [List.filter_eq_nil_iff]
        intro a ha had
        have h1 : a.1 = d := by simpa using had
        have h2 : b.1 = d := by simpa using hb
        exact h.1 (by rw [h2, ← h1]; exact List.mem_map_of_mem Prod.fst ha)
      simp [ht0]
    · rw [if_neg hb]
      exact ih h.2

theorem mergeRows_cons (a : MRow) (t r : List MRow) (rw2 : Nat) :
    mergeRows (a :: t) r rw2
      = (match r.filter (fun b => b.1 == a.1) with
          | [] => [(a.1, a.2 ++ List.replicate rw2 (none : Cell))]
          | ms => ms.map (fun b => (a.1, a.2 ++ b.2)))
        ++ mergeRows t r rw2 := rfl

theorem mergeRows_dates (l r : List MRow) (rw2 : Nat) (h : (r.map Prod.fst).Nodup) :
    (mergeRows l r rw2).map Prod.fst = l.map Prod.fst := by
  induction l with
  | nil => rfl
  | cons a t ih =>
    rw [mergeRows_cons, List.map_append, ih]
    show _ ++ _ = a.1 :: t.map Prod.fst
    cases hf : r.filter (fun b => b.1 == a.1) with
    | nil => rfl
    | cons b bs =>
      have hlen := filter_key_len h a.1
      rw [hf] at hlen
      have hbs : bs = [] := by
        cases bs with
        | nil => rfl
        | cons c cs => simp at hlen
      subst hbs
      rfl

theorem mem_mergeRows {l r : List MRow} {rw2 : Nat} {x : MRow} (h : x ∈ mergeRows l r rw2) :
    ∃ a ∈ l, (∃ b ∈ r, x = (a.1, a.2 ++ b.2))
      ∨ (r.filter (fun b => b.1 == a.1) = []
          ∧ x = (a.1, a.2 ++ List.replicate rw2 (none : Cell))) := by
  rw [mergeRows, List.mem_flatMap] at h
  obtain ⟨a, ha, hx⟩ := h
  refine ⟨a, ha, ?_⟩
  cases hf : r.filter (fun b => b.1 == a.1) with
  | nil =>
    rw [hf] at hx
    exact Or.inr ⟨rfl, List.mem_singleton.mp hx⟩
  | cons b bs =>
    rw [hf] at hx
    obtain ⟨b2, hb2, he⟩ := List.mem_map.mp hx
    exact Or.inl ⟨b2, List.mem_of_mem_filter (hf ▸ hb2), he.symm⟩

theorem gridMap_fst_lt (lo : ℤ) (K : Nat) (g : Nat → Cell) :
    (((List.range K).map (fun j : Nat => (lo + (j:ℤ), g j))).map Prod.fst).Pairwise (· < ·) := by
  rw [List.pairwise_map, List.pairwise_map]
  exact (List.pairwise_lt_range K).imp (fun h => by simpa using h)

theorem resampleFfill_dates_lt (rows : List SRow) :
    ((resampleFfill rows).map Prod.fst).Pairwise (· < ·) := by
  rw [resampleFfill]
  by_cases h : rows.isEmpty
  · rw [if_pos h]
    simp
  · rw [if_neg h]
    exact gridMap_fst_lt (monthLo rows) _ _

theorem resampleMean_dates_lt (rows : List SRow) :
    ((resampleMean rows).map Prod.fst).Pairwise (· < ·) := by
  rw [resampleMean]
  by_cases h : rows.isEmpty
  · rw [if_pos h]
    simp
  · rw [if_neg h]
    exact gridMap_fst_lt (monthLo rows) _ _

theorem groupSum_dates_lt (w : Nat) (rows : List MRow) :
    ((groupSum w rows).map Prod.fst).Pairwise (· < ·) := by
  rw [groupSum, List.map_map, List.pairwise_map]
  exact dedupSortInt_pairwise_lt _

/-! ### Head preservation through the derive loop, forward fill, dropna -/

theorem setCol_cons_ne (n0 : ColName) (c0 : Col) (t : DF) (n : ColName) (c : Col)
    (h : n0 ≠ n) : setCol ((n0, c0) :: t) n c = (n0, c0) :: setCol t n c := by
  simp [setCol, h]

theorem add_lag_head (v : ColName) (lags : List Nat) : ∀ (c0 : Col) (t : DF),
    ∃ t2, add_lag_features ((ColName.date, c0) :: t) v lags = (ColName.date, c0) :: t2 := by
  induction lags with
  | nil => exact fun c0 t => ⟨t, rfl⟩
  | cons k ks ih =>
    intro c0 t
    rw [add_lag_features_cons,
      setCol_cons_ne _ _ _ _ _ (fun h => ColName.noConfusion h)]
    exact ih c0 _

theorem roll_one_head (sf : List ℚ → ℚ) (v : ColName) (w : Nat) (stats : List Stat) :
    ∀ (c0 : Col) (t : DF),
    ∃ t2, roll_one sf ((ColName.date, c0) :: t) v w stats = (ColName.date, c0) :: t2 := by
  induction stats with
  | nil => exact fun c0 t => ⟨t, rfl⟩
  | cons s ss ih =>
    intro c0 t
    rw [roll_one_cons,
      setCol_cons_ne _ _ _ _ _ (fun h => ColName.noConfusion h)]
    exact ih c0 _

theorem add_rolling_head (sf : List ℚ → ℚ) (v : ColName) (windows : List Nat)
    (stats : List Stat) : ∀ (c0 : Col) (t : DF),
    ∃ t2, add_rolling_features sf ((ColName.date, c0) :: t) v windows stats
      = (ColName.date, c0) :: t2 := by
  induction windows with
  | nil => exact fun c0 t => ⟨t, rfl⟩
  | cons w ws ih =>
    intro c0 t
    rw [add_rolling_features_cons]
    obtain ⟨t2, ht2⟩ := roll_one_head sf v w stats c0 t
    rw [ht2]
    exact ih c0 t2

theorem stepVar_head (sf : List ℚ → ℚ) (c : ColName) (c0 : Col) (t : DF) :
    ∃ t2, stepVar sf ((ColName.date, c0) :: t) c = (ColName.date, c0) :: t2 := by
  obtain ⟨t1, h1⟩ := add_lag_head c lagsList c0 t
  rw [stepVar, h1]
  exact add_rolling_head sf c windowsList defaultStats c0 t1

theorem deriveAll_head (sf : List ℚ → ℚ) (l : List ColName) : ∀ (c0 : Col) (t : DF),
    ∃ t2, deriveAll sf ((ColName.date, c0) :: t) l = (ColName.date, c0) :: t2 := by
  induction l with
  | nil => exact fun c0 t => ⟨t, rfl⟩
  | cons c cs ih =>
    intro c0 t
    rw [deriveAll_cons]
    obtain ⟨t1, h1⟩ := stepVar_head sf c c0 t
    rw [h1]
    exact ih c0 t1

theorem ffillGo_all_some : ∀ (c : Col), (∀ x ∈ c, x.isSome) → ∀ (last : Cell),
    ffillGo last c = c := by
  intro c
  induction c with
  | nil => exact fun _ _ => rfl
  | cons x t ih =>
    intro h last
    cases x with
    | none => exact absurd (h none (List.mem_cons_self _ _)) (by simp)
    | some v =>
      show some v :: ffillGo (some v) t = some v :: t
      rw [ih (fun y hy => h y (List.mem_cons_of_mem _ hy)) (some v)]

theorem dropna_all_some (df : DF) : ∀ p ∈ dropna df, ∀ x ∈ p.2, x.isSome := by
  intro p hp x hx
  rw [dropna] at hp
  obtain ⟨q, hq, he⟩ := List.mem_map.mp hp
  subst he
  rw [applyIdx] at hx
  obtain ⟨i, hi, hxe⟩ := List.mem_map.mp hx
  rw [keepRowIdx, List.mem_filter] at hi
  have h2 := List.all_eq_true.mp hi.2 q hq
  rw [← hxe]
  simpa using h2

theorem getD_map_of_lt {α β : Type} (f : α → β) (l : List α) (i : Nat) (d : β) (d0 : α)
    (h : i < l.length) : (l.map f).getD i d = f (l.getD i d0) := by
  rw [List.getD_eq_getElem (l.map f) d (by simpa using h), List.getD_eq_getElem l d0 h,
    List.getElem_map]

theorem getD_pairwise_lt {zs : List ℤ} (h : zs.Pairwise (· < ·)) {i j : Nat}
    (hi : i < zs.length) (hj : j < zs.length) (hij : i < j) : zs.getD i 0 < zs.getD j 0 := by
  rw [List.getD_eq_getElem zs 0 hi, List.getD_eq_getElem zs 0 hj]
  exact List.pairwise_iff_getElem.mp h i j hi hj hij

theorem keepRowIdx_pairwise (df : DF) : (keepRowIdx df).Pairwise (· < ·) :=
  List.Pairwise.filter _ (List.pairwise_lt_range _)

theorem keepRowIdx_lt {df : DF} {i : Nat} (h : i ∈ keepRowIdx df) : i < nrows df := by
  rw [keepRowIdx, List.mem_filter] at h
  exact List.mem_range.mp h.1

/-! ### The Brent placeholder column through the merges -/

theorem mem_mergeRows_slot1 {l r : List MRow} {rw2 : Nat} {x : MRow}
    (hl : ∀ a ∈ l, a.2.getD 1 none = some 0 ∧ 2 ≤ a.2.length)
    (hx : x ∈ mergeRows l r rw2) :
    x.2.getD 1 none = some 0 ∧ 2 ≤ x.2.length := by
  obtain ⟨a, ha, hcase⟩ := mem_mergeRows hx
  obtain ⟨h1, h2⟩ := hl a ha
  rcases hcase with ⟨b, _, he⟩ | ⟨_, he⟩
  · subst he
    refine ⟨?_, ?_⟩
    · show (a.2 ++ b.2).getD 1 none = some 0
      rw [List.getD_append _ _ _ _ (by omega)]
      exact h1
    · show 2 ≤ (a.2 ++ b.2).length
      rw [List.length_append]
      omega
  · subst he
    refine ⟨?_, ?_⟩
    · show (a.2 ++ List.replicate rw2 (none : Cell)).getD 1 none = some 0
      rw [List.getD_append _ _ _ _ (by omega)]
      exact h1
    · show 2 ≤ (a.2 ++ List.replicate rw2 (none : Cell)).length
      rw [List.length_append]
      omega

theorem m1_slot1 (saudi : List SRow) {x : MRow}
    (hx : x ∈ mergeRows (saudi.map (fun p => (p.1, [p.2])))
      ((saudi.map (fun p => (p.1, (some 0 : Cell)))).map (fun p => (p.1, [p.2]))) 1) :
    x.2.getD 1 none = some 0 ∧ 2 ≤ x.2.length := by
  obtain ⟨a, ha, hcase⟩ := mem_mergeRows hx
  obtain ⟨p, hp, hpe⟩ := List.mem_map.mp ha
  rcases hcase with ⟨b, hb, he⟩ | ⟨hf, he⟩
  · have hb2 : b.2 = [some 0] := by
      rw [List.map_map] at hb
      obtain ⟨q, _, hqe⟩ := List.mem_map.mp hb
      rw [← hqe]
      rfl
    have ha2 : a.2 = [p.2] := by rw [← hpe]
    subst he
    refine ⟨?_, ?_⟩
    · show (a.2 ++ b.2).getD 1 none = some 0
      rw [ha2, hb2]
      rfl
    · show 2 ≤ (a.2 ++ b.2).length
      rw [ha2, hb2]
      exact le_refl 2
  · exfalso
    rw [List.filter_eq_nil_iff] at hf
    have hmem : (((p.1 : ℤ), [(some 0 : Cell)]) : MRow)
        ∈ (saudi.map (fun p => (p.1, (some 0 : Cell)))).map (fun p => (p.1, [p.2])) := by
      rw [List.map_map]
      exact List.mem_map.mpr ⟨p, hp, rfl⟩
    apply hf _ hmem
    show (p.1 == a.1) = true
    rw [← hpe]
    exact beq_self_eq_true p.1

theorem sorted_slot1 (saudi : List SRow) (renew world : List MRow) (rw1 rw2 : Nat) :
    ∀ x ∈ sortRows (mergeRows (mergeRows (mergeRows
        (saudi.map (fun p => (p.1, [p.2])))
        ((saudi.map (fun p => (p.1, (some 0 : Cell)))).map (fun p => (p.1, [p.2]))) 1)
        renew rw1) world rw2),
      x.2.getD 1 none = some 0 ∧ 2 ≤ x.2.length := by
  intro x hx
  have hm3 := sortBy_subset _ _ x hx
  exact mem_mergeRows_slot1
    (fun a ha => mem_mergeRows_slot1 (fun b hb => m1_slot1 saudi hb) ha) hm3

theorem getCol?_rowsToDF_brent (rest : List ColName) (rows : List MRow) :
    getCol? (rowsToDF (ColName.base "saudi_production" :: ColName.base "brent_price" :: rest)
        rows) (ColName.base "brent_price")
      = some (rows.map (fun r => r.2.getD 1 none)) := by
  rw [rowsToDF, colsFrom, colsFrom]
  rw [getCol?, if_neg (fun h => ColName.noConfusion h)]
  rw [getCol?, if_neg ?hsp]
  rw [getCol?, if_pos rfl]
  case hsp =>
    intro h
    injection h with h2
    exact absurd h2 (by decide)

/-- When every merged row carries `some 0` in slot 1 (the Brent slot), every
cell of the persisted frame's `brent_price` column is `some 0`. -/
theorem brent_col_zero (sf : List ℚ → ℚ) (rest : List ColName) (rows : List MRow)
    (h : ∀ r ∈ rows, r.2.getD 1 none = some 0) :
    ∀ x ∈ getColD (dropna (builderDerive sf (ffillDF (rowsToDF (ColName.base "saudi_production" :: ColName.base "brent_price" :: rest) rows)))) (ColName.base "brent_price"), x = some 0 := by
  have hcol1 : ∀ x ∈ rows.map (fun r => r.2.getD 1 none), x = some 0 := by
    intro x hx
    obtain ⟨r, hr, he⟩ := List.mem_map.mp hx
    rw [← he]
    exact h r hr
  have hc1some : ∀ x ∈ rows.map (fun r => r.2.getD 1 none), x.isSome := by
    intro x hx
    rw [hcol1 x hx]
    rfl
  have hget0 : getColD (rowsToDF (ColName.base "saudi_production" :: ColName.base "brent_price" :: rest) rows) (ColName.base "brent_price") = rows.map (fun r => r.2.getD 1 none) := by
    rw [getColD, getCol?_rowsToDF_brent]
    rfl
  have hhas0 : hasCol (rowsToDF (ColName.base "saudi_production" :: ColName.base "brent_price" :: rest) rows) (ColName.base "brent_price") = true := by
    rw [hasCol, getCol?_rowsToDF_brent]
    rfl
  have hdf1get : getColD (ffillDF (rowsToDF (ColName.base "saudi_production" :: ColName.base "brent_price" :: rest) rows)) (ColName.base "brent_price") = rows.map (fun r => r.2.getD 1 none) := by
    have h2 := getColD_map_eq_of_hasCol (rowsToDF (ColName.base "saudi_production" :: ColName.base "brent_price" :: rest) rows) (fun p => ffillCol p.2)
      (ColName.base "brent_price") hhas0
    rw [hget0] at h2
    exact h2.trans (ffillGo_all_some _ hc1some none)
  have hdf2get : getColD (builderDerive sf (ffillDF (rowsToDF (ColName.base "saudi_production" :: ColName.base "brent_price" :: rest) rows))) (ColName.base "brent_price") = rows.map (fun r => r.2.getD 1 none) := by
    rw [builderDerive, getColD_deriveAll_base, hdf1get]
  have hhas1 : hasCol (ffillDF (rowsToDF (ColName.base "saudi_production" :: ColName.base "brent_price" :: rest) rows)) (ColName.base "brent_price") = true := by
    have h2 := hasCol_map_eq (rowsToDF (ColName.base "saudi_production" :: ColName.base "brent_price" :: rest) rows) (fun p => ffillCol p.2) (ColName.base "brent_price")
    rw [hhas0] at h2
    exact h2
  have hhas2 : hasCol (builderDerive sf (ffillDF (rowsToDF (ColName.base "saudi_production" :: ColName.base "brent_price" :: rest) rows))) (ColName.base "brent_price") = true := by
    rw [builderDerive]
    exact hasCol_deriveAll_mono sf _ _ hhas1
  have hdrop : getColD (dropna (builderDerive sf (ffillDF (rowsToDF (ColName.base "saudi_production" :: ColName.base "brent_price" :: rest) rows)))) (ColName.base "brent_price")
      = applyIdx (rows.map (fun r => r.2.getD 1 none)) (keepRowIdx (builderDerive sf (ffillDF (rowsToDF (ColName.base "saudi_production" :: ColName.base "brent_price" :: rest) rows)))) := by
    have h2 := getColD_map_eq_of_hasCol (builderDerive sf (ffillDF (rowsToDF (ColName.base "saudi_production" :: ColName.base "brent_price" :: rest) rows)))
      (fun p => applyIdx p.2 (keepRowIdx (builderDerive sf (ffillDF (rowsToDF (ColName.base "saudi_production" :: ColName.base "brent_price" :: rest) rows))))) (ColName.base "brent_price") hhas2
    rw [hdf2get] at h2
    exact h2
  have hdall : ∀ x ∈ rows.map (fun r => (some ((r.1 : ℚ)) : Cell)), x.isSome := by
    intro x hx
    obtain ⟨r, hr, he⟩ := List.mem_map.mp hx
    rw [← he]
    rfl
  have hffd : ffillCol (rows.map (fun r => (some ((r.1 : ℚ)) : Cell))) = rows.map (fun r => (some ((r.1 : ℚ)) : Cell)) := ffillGo_all_some _ hdall none
  have hdf1 : ffillDF (rowsToDF (ColName.base "saudi_production" :: ColName.base "brent_price" :: rest) rows) = (ColName.date, rows.map (fun r => (some ((r.1 : ℚ)) : Cell))) :: ffillDF (colsFrom 0 (ColName.base "saudi_production" :: ColName.base "brent_price" :: rest) rows) := by
    show (ColName.date, ffillCol (rows.map (fun r => (some ((r.1 : ℚ)) : Cell)))) :: ffillDF (colsFrom 0 (ColName.base "saudi_production" :: ColName.base "brent_price" :: rest) rows) = _
    rw [hffd]
  obtain ⟨t2, ht2⟩ := deriveAll_head sf
    (targetCol :: (colsOf ((ColName.date, rows.map (fun r => (some ((r.1 : ℚ)) : Cell))) :: ffillDF (colsFrom 0 (ColName.base "saudi_production" :: ColName.base "brent_price" :: rest) rows))).filter
      (fun c => !(c == ColName.date || c == targetCol)))
    (rows.map (fun r => (some ((r.1 : ℚ)) : Cell))) (ffillDF (colsFrom 0 (ColName.base "saudi_production" :: ColName.base "brent_price" :: rest) rows))
  have hdf2 : builderDerive sf (ffillDF (rowsToDF (ColName.base "saudi_production" :: ColName.base "brent_price" :: rest) rows)) = (ColName.date, rows.map (fun r => (some ((r.1 : ℚ)) : Cell))) :: t2 := by
    rw [builderDerive, hdf1]
    exact ht2
  have hn : nrows (builderDerive sf (ffillDF (rowsToDF (ColName.base "saudi_production" :: ColName.base "brent_price" :: rest) rows))) = rows.length := by
    rw [hdf2]
    show (rows.map (fun r => (some ((r.1 : ℚ)) : Cell))).length = rows.length
    exact List.length_map _ _
  intro x hx
  rw [hdrop, applyIdx] at hx
  obtain ⟨i, hi, he⟩ := List.mem_map.mp hx
  have hilt : i < (rows.map (fun r => r.2.getD 1 none)).length := by
    rw [List.length_map]
    have h2 := keepRowIdx_lt hi
    rw [hn] at h2
    exact h2
  rw [← he]
  exact hcol1 _ (getD_mem_of_lt _ i none hilt)

/-- C8 (error handling of the Brent source, build_features.py lines 158-166):
when loading or preparing the Brent price data fails with any error, the
builder does not abort: it logs exactly the placeholder warning for that
error and still produces the feature matrix, with every cell of the
`brent_price` column equal to the placeholder zero, for every input
dataset. -/
theorem claim_C8 (sf : List ℚ → ℚ) (sd : List SRow) (e : String)
    (renewRaw worldRaw : List MRow) (rNames wNames : List ColName) :
    (build_features sf sd (Except.error e) renewRaw worldRaw rNames wNames).2
        = [brentWarning e] ∧
    ((getColD (build_features sf sd (Except.error e) renewRaw worldRaw rNames wNames).1
        (ColName.base "brent_price")).all (fun x => x == some 0) = true) := by
  refine ⟨rfl, ?_⟩
  apply List.all_eq_true.mpr
  intro x hx
  have hz : x = some 0 := by
    refine brent_col_zero sf (rNames ++ wNames) _ ?_ x hx
    intro r hr
    exact (sorted_slot1 (resampleFfill (dedupDates sd))
      (groupSum rNames.length renewRaw) (groupSum wNames.length worldRaw)
      rNames.length wNames.length r hr).1
  rw [hz]
  decide

/-- Core of claim C6: when the Saudi grid has strictly increasing dates and
the Brent table has duplicate-free dates, the date column of the persisted
frame is the `some`-image of a strictly increasing list of month indices. -/
theorem builder_dates_core (sf : List ℚ → ℚ) (saudi brent : List SRow)
    (renewRaw worldRaw : List MRow) (rNames wNames : List ColName)
    (hs : (saudi.map Prod.fst).Pairwise (· < ·))
    (hb : (brent.map Prod.fst).Nodup) :
    ∃ ks : List ℤ, ks.Pairwise (· < ·) ∧
      getColD (dropna (builderDerive sf (ffillDF (rowsToDF (ColName.base "saudi_production" :: ColName.base "brent_price" :: (rNames ++ wNames))
          (sortRows (mergeRows (mergeRows (mergeRows (saudi.map (fun p => (p.1, [p.2]))) (brent.map (fun p => (p.1, [p.2]))) 1) (groupSum rNames.length renewRaw) rNames.length) (groupSum wNames.length worldRaw) wNames.length)))))) ColName.date
        = ks.map (fun z : ℤ => (some ((z : ℚ)) : Cell)) := by
  have hnb : ((brent.map (fun p => (p.1, [p.2]))).map Prod.fst).Nodup := by
    rw [List.map_map]
    exact hb
  have hm1 : ((mergeRows (saudi.map (fun p => (p.1, [p.2]))) (brent.map (fun p => (p.1, [p.2]))) 1).map Prod.fst) = saudi.map Prod.fst := by
    rw [mergeRows_dates _ _ _ hnb, List.map_map]
    rfl
  have hrn : ((groupSum rNames.length renewRaw).map Prod.fst).Nodup :=
    (groupSum_dates_lt _ _).imp ne_of_lt
  have hwn : ((groupSum wNames.length worldRaw).map Prod.fst).Nodup :=
    (groupSum_dates_lt _ _).imp ne_of_lt
  have hm2 : ((mergeRows (mergeRows (saudi.map (fun p => (p.1, [p.2]))) (brent.map (fun p => (p.1, [p.2]))) 1) (groupSum rNames.length renewRaw) rNames.length).map Prod.fst) = saudi.map Prod.fst := by
    rw [mergeRows_dates _ _ _ hrn, hm1]
  have hm3 : ((mergeRows (mergeRows (mergeRows (saudi.map (fun p => (p.1, [p.2]))) (brent.map (fun p => (p.1, [p.2]))) 1) (groupSum rNames.length renewRaw) rNames.length) (groupSum wNames.length worldRaw) wNames.length).map Prod.fst) = saudi.map Prod.fst := by
    rw [mergeRows_dates _ _ _ hwn, hm2]
  have hm3lt : ((mergeRows (mergeRows (mergeRows (saudi.map (fun p => (p.1, [p.2]))) (brent.map (fun p => (p.1, [p.2]))) 1) (groupSum rNames.length renewRaw) rNames.length) (groupSum wNames.length worldRaw) wNames.length).map Prod.fst).Pairwise (· < ·) := by
    rw [hm3]
    exact hs
  have hm3le : (mergeRows (mergeRows (mergeRows (saudi.map (fun p => (p.1, [p.2]))) (brent.map (fun p => (p.1, [p.2]))) 1) (groupSum rNames.length renewRaw) rNames.length) (groupSum wNames.length worldRaw) wNames.length).Pairwise (fun a b => decide (a.1 ≤ b.1) = true) := by
    have h2 := List.pairwise_map.mp hm3lt
    exact h2.imp (fun h3 => decide_eq_true (le_of_lt h3))
  have hsorted : sortRows (mergeRows (mergeRows (mergeRows (saudi.map (fun p => (p.1, [p.2]))) (brent.map (fun p => (p.1, [p.2]))) 1) (groupSum rNames.length renewRaw) rNames.length) (groupSum wNames.length worldRaw) wNames.length) = mergeRows (mergeRows (mergeRows (saudi.map (fun p => (p.1, [p.2]))) (brent.map (fun p => (p.1, [p.2]))) 1) (groupSum rNames.length renewRaw) rNames.length) (groupSum wNames.length worldRaw) wNames.length := sortBy_eq_self _ _ hm3le
  rw [hsorted]
  have hdall : ∀ x ∈ (mergeRows (mergeRows (mergeRows (saudi.map (fun p => (p.1, [p.2]))) (brent.map (fun p => (p.1, [p.2]))) 1) (groupSum rNames.length renewRaw) rNames.length) (groupSum wNames.length worldRaw) wNames.length).map (fun r => (some ((r.1 : ℚ)) : Cell)), x.isSome := by
    intro x hx
    obtain ⟨r, hr, he⟩ := List.mem_map.mp hx
    rw [← he]
    rfl
  have hffd : ffillCol ((mergeRows (mergeRows (mergeRows (saudi.map (fun p => (p.1, [p.2]))) (brent.map (fun p => (p.1, [p.2]))) 1) (groupSum rNames.length renewRaw) rNames.length) (groupSum wNames.length worldRaw) wNames.length).map (fun r => (some ((r.1 : ℚ)) : Cell))) = (mergeRows (mergeRows (mergeRows (saudi.map (fun p => (p.1, [p.2]))) (brent.map (fun p => (p.1, [p.2]))) 1) (groupSum rNames.length renewRaw) rNames.length) (groupSum wNames.length worldRaw) wNames.length).map (fun r => (some ((r.1 : ℚ)) : Cell)) := ffillGo_all_some _ hdall none
  have hdf1 : ffillDF (rowsToDF (ColName.base "saudi_production" :: ColName.base "brent_price" :: (rNames ++ wNames)) (mergeRows (mergeRows (mergeRows (saudi.map (fun p => (p.1, [p.2]))) (brent.map (fun p => (p.1, [p.2]))) 1) (groupSum rNames.length renewRaw) rNames.length) (groupSum wNames.length worldRaw) wNames.length)) = (ColName.date, (mergeRows (mergeRows (mergeRows (saudi.map (fun p => (p.1, [p.2]))) (brent.map (fun p => (p.1, [p.2]))) 1) (groupSum rNames.length renewRaw) rNames.length) (groupSum wNames.length worldRaw) wNames.length).map (fun r => (some ((r.1 : ℚ)) : Cell))) :: ffillDF (colsFrom 0 (ColName.base "saudi_production" :: ColName.base "brent_price" :: (rNames ++ wNames)) (mergeRows (mergeRows (mergeRows (saudi.map (fun p => (p.1, [p.2]))) (brent.map (fun p => (p.1, [p.2]))) 1) (groupSum rNames.length renewRaw) rNames.length) (groupSum wNames.length worldRaw) wNames.length)) := by
    show (ColName.date, ffillCol ((mergeRows (mergeRows (mergeRows (saudi.map (fun p => (p.1, [p.2]))) (brent.map (fun p => (p.1, [p.2]))) 1) (groupSum rNames.length renewRaw) rNames.length) (groupSum wNames.length worldRaw) wNames.length).map (fun r => (some ((r.1 : ℚ)) : Cell)))) :: ffillDF (colsFrom 0 (ColName.base "saudi_production" :: ColName.base "brent_price" :: (rNames ++ wNames)) (mergeRows (mergeRows (mergeRows (saudi.map (fun p => (p.1, [p.2]))) (brent.map (fun p => (p.1, [p.2]))) 1) (groupSum rNames.length renewRaw) rNames.length) (groupSum wNames.length worldRaw) wNames.length)) = _
    rw [hffd]
  obtain ⟨t2, ht2⟩ := deriveAll_head sf
    (targetCol :: (colsOf ((ColName.date, (mergeRows (mergeRows (mergeRows (saudi.map (fun p => (p.1, [p.2]))) (brent.map (fun p => (p.1, [p.2]))) 1) (groupSum rNames.length renewRaw) rNames.length) (groupSum wNames.length worldRaw) wNames.length).map (fun r => (some ((r.1 : ℚ)) : Cell))) :: ffillDF (colsFrom 0 (ColName.base "saudi_production" :: ColName.base "brent_price" :: (rNames ++ wNames)) (mergeRows (mergeRows (mergeRows (saudi.map (fun p => (p.1, [p.2]))) (brent.map (fun p => (p.1, [p.2]))) 1) (groupSum rNames.length renewRaw) rNames.length) (groupSum wNames.length worldRaw) wNames.length)))).filter
      (fun c => !(c == ColName.date || c == targetCol)))
    ((mergeRows (mergeRows (mergeRows (saudi.map (fun p => (p.1, [p.2]))) (brent.map (fun p => (p.1, [p.2]))) 1) (groupSum rNames.length renewRaw) rNames.length) (groupSum wNames.length worldRaw) wNames.length).map (fun r => (some ((r.1 : ℚ)) : Cell))) (ffillDF (colsFrom 0 (ColName.base "saudi_production" :: ColName.base "brent_price" :: (rNames ++ wNames)) (mergeRows (mergeRows (mergeRows (saudi.map (fun p => (p.1, [p.2]))) (brent.map (fun p => (p.1, [p.2]))) 1) (groupSum rNames.length renewRaw) rNames.length) (groupSum wNames.length worldRaw) wNames.length)))
  have hdf2 : builderDerive sf (ffillDF (rowsToDF (ColName.base "saudi_production" :: ColName.base "brent_price" :: (rNames ++ wNames)) (mergeRows (mergeRows (mergeRows (saudi.map (fun p => (p.1, [p.2]))) (brent.map (fun p => (p.1, [p.2]))) 1) (groupSum rNames.length renewRaw) rNames.length) (groupSum wNames.length worldRaw) wNames.length)))
      = (ColName.date, (mergeRows (mergeRows (mergeRows (saudi.map (fun p => (p.1, [p.2]))) (brent.map (fun p => (p.1, [p.2]))) 1) (groupSum rNames.length renewRaw) rNames.length) (groupSum wNames.length worldRaw) wNames.length).map (fun r => (some ((r.1 : ℚ)) : Cell))) :: t2 := by
    rw [builderDerive, hdf1]
    exact ht2
  rw [hdf2]
  have hhasd : hasCol ((ColName.date, (mergeRows (mergeRows (mergeRows (saudi.map (fun p => (p.1, [p.2]))) (brent.map (fun p => (p.1, [p.2]))) 1) (groupSum rNames.length renewRaw) rNames.length) (groupSum wNames.length worldRaw) wNames.length).map (fun r => (some ((r.1 : ℚ)) : Cell))) :: t2) ColName.date = true := by
    rw [hasCol, getCol?, if_pos rfl]
    rfl
  have hgetd : getColD ((ColName.date, (mergeRows (mergeRows (mergeRows (saudi.map (fun p => (p.1, [p.2]))) (brent.map (fun p => (p.1, [p.2]))) 1) (groupSum rNames.length renewRaw) rNames.length) (groupSum wNames.length worldRaw) wNames.length).map (fun r => (some ((r.1 : ℚ)) : Cell))) :: t2) ColName.date = (mergeRows (mergeRows (mergeRows (saudi.map (fun p => (p.1, [p.2]))) (brent.map (fun p => (p.1, [p.2]))) 1) (groupSum rNames.length renewRaw) rNames.length) (groupSum wNames.length worldRaw) wNames.length).map (fun r => (some ((r.1 : ℚ)) : Cell)) := by
    rw [getColD, getCol?, if_pos rfl]
    rfl
  have hout : getColD (dropna ((ColName.date, (mergeRows (mergeRows (mergeRows (saudi.map (fun p => (p.1, [p.2]))) (brent.map (fun p => (p.1, [p.2]))) 1) (groupSum rNames.length renewRaw) rNames.length) (groupSum wNames.length worldRaw) wNames.length).map (fun r => (some ((r.1 : ℚ)) : Cell))) :: t2)) ColName.date
      = applyIdx ((mergeRows (mergeRows (mergeRows (saudi.map (fun p => (p.1, [p.2]))) (brent.map (fun p => (p.1, [p.2]))) 1) (groupSum rNames.length renewRaw) rNames.length) (groupSum wNames.length worldRaw) wNames.length).map (fun r => (some ((r.1 : ℚ)) : Cell))) (keepRowIdx ((ColName.date, (mergeRows (mergeRows (mergeRows (saudi.map (fun p => (p.1, [p.2]))) (brent.map (fun p => (p.1, [p.2]))) 1) (groupSum rNames.length renewRaw) rNames.length) (groupSum wNames.length worldRaw) wNames.length).map (fun r => (some ((r.1 : ℚ)) : Cell))) :: t2)) := by
    have h2 := getColD_map_eq_of_hasCol ((ColName.date, (mergeRows (mergeRows (mergeRows (saudi.map (fun p => (p.1, [p.2]))) (brent.map (fun p => (p.1, [p.2]))) 1) (groupSum rNames.length renewRaw) rNames.length) (groupSum wNames.length worldRaw) wNames.length).map (fun r => (some ((r.1 : ℚ)) : Cell))) :: t2)
      (fun p => applyIdx p.2 (keepRowIdx ((ColName.date, (mergeRows (mergeRows (mergeRows (saudi.map (fun p => (p.1, [p.2]))) (brent.map (fun p => (p.1, [p.2]))) 1) (groupSum rNames.length renewRaw) rNames.length) (groupSum wNames.length worldRaw) wNames.length).map (fun r => (some ((r.1 : ℚ)) : Cell))) :: t2))) ColName.date hhasd
    rw [hgetd] at h2
    exact h2
  have hkb : ∀ i ∈ keepRowIdx ((ColName.date, (mergeRows (mergeRows (mergeRows (saudi.map (fun p => (p.1, [p.2]))) (brent.map (fun p => (p.1, [p.2]))) 1) (groupSum rNames.length renewRaw) rNames.length) (groupSum wNames.length worldRaw) wNames.length).map (fun r => (some ((r.1 : ℚ)) : Cell))) :: t2), i < (mergeRows (mergeRows (mergeRows (saudi.map (fun p => (p.1, [p.2]))) (brent.map (fun p => (p.1, [p.2]))) 1) (groupSum rNames.length renewRaw) rNames.length) (groupSum wNames.length worldRaw) wNames.length).length := by
    intro i hi
    have h2 := keepRowIdx_lt hi
    have h3 : nrows ((ColName.date, (mergeRows (mergeRows (mergeRows (saudi.map (fun p => (p.1, [p.2]))) (brent.map (fun p => (p.1, [p.2]))) 1) (groupSum rNames.length renewRaw) rNames.length) (groupSum wNames.length worldRaw) wNames.length).map (fun r => (some ((r.1 : ℚ)) : Cell))) :: t2) = (mergeRows (mergeRows (mergeRows (saudi.map (fun p => (p.1, [p.2]))) (brent.map (fun p => (p.1, [p.2]))) 1) (groupSum rNames.length renewRaw) rNames.length) (groupSum wNames.length worldRaw) wNames.length).length := by
      show ((mergeRows (mergeRows (mergeRows (saudi.map (fun p => (p.1, [p.2]))) (brent.map (fun p => (p.1, [p.2]))) 1) (groupSum rNames.length renewRaw) rNames.length) (groupSum wNames.length worldRaw) wNames.length).map (fun r => (some ((r.1 : ℚ)) : Cell))).length = (mergeRows (mergeRows (mergeRows (saudi.map (fun p => (p.1, [p.2]))) (brent.map (fun p => (p.1, [p.2]))) 1) (groupSum rNames.length renewRaw) rNames.length) (groupSum wNames.length worldRaw) wNames.length).length
      exact List.length_map _ _
    rw [h3] at h2
    exact h2
  refine ⟨(keepRowIdx ((ColName.date, (mergeRows (mergeRows (mergeRows (saudi.map (fun p => (p.1, [p.2]))) (brent.map (fun p => (p.1, [p.2]))) 1) (groupSum rNames.length renewRaw) rNames.length) (groupSum wNames.length worldRaw) wNames.length).map (fun r => (some ((r.1 : ℚ)) : Cell))) :: t2)).map (fun i => ((mergeRows (mergeRows (mergeRows (saudi.map (fun p => (p.1, [p.2]))) (brent.map (fun p => (p.1, [p.2]))) 1) (groupSum rNames.length renewRaw) rNames.length) (groupSum wNames.length worldRaw) wNames.length).map Prod.fst).getD i 0), ?_, ?_⟩
  · apply List.pairwise_map.mpr
    refine List.Pairwise.imp_of_mem ?_ (keepRowIdx_pairwise _)
    intro i j hi hj hij
    refine getD_pairwise_lt hm3lt ?_ ?_ hij
    · rw [List.length_map]
      exact hkb i hi
    · rw [List.length_map]
      exact hkb j hj
  · rw [hout, applyIdx, List.map_map]
    apply List.map_congr_left
    intro i hi
    have hib : i < (mergeRows (mergeRows (mergeRows (saudi.map (fun p => (p.1, [p.2]))) (brent.map (fun p => (p.1, [p.2]))) 1) (groupSum rNames.length renewRaw) rNames.length) (groupSum wNames.length worldRaw) wNames.length).length := hkb i hi
    show ((mergeRows (mergeRows (mergeRows (saudi.map (fun p => (p.1, [p.2]))) (brent.map (fun p => (p.1, [p.2]))) 1) (groupSum rNames.length renewRaw) rNames.length) (groupSum wNames.length worldRaw) wNames.length).map (fun r => (some ((r.1 : ℚ)) : Cell))).getD i none
        = some (((((mergeRows (mergeRows (mergeRows (saudi.map (fun p => (p.1, [p.2]))) (brent.map (fun p => (p.1, [p.2]))) 1) (groupSum rNames.length renewRaw) rNames.length) (groupSum wNames.length worldRaw) wNames.length).map Prod.fst).getD i 0 : ℤ) : ℚ))
    rw [getD_map_of_lt (fun r => (some ((r.1 : ℚ)) : Cell)) (mergeRows (mergeRows (mergeRows (saudi.map (fun p => (p.1, [p.2]))) (brent.map (fun p => (p.1, [p.2]))) 1) (groupSum rNames.length renewRaw) rNames.length) (groupSum wNames.length worldRaw) wNames.length) i none
      ((0 : ℤ), ([] : List Cell)) hib]
    rw [getD_map_of_lt Prod.fst (mergeRows (mergeRows (mergeRows (saudi.map (fun p => (p.1, [p.2]))) (brent.map (fun p => (p.1, [p.2]))) 1) (groupSum rNames.length renewRaw) rNames.length) (groupSum wNames.length worldRaw) wNames.length) i 0 ((0 : ℤ), ([] : List Cell)) hib]

/-- Unfolding of `build_features` when the Brent source loads. -/
theorem build_features_ok_eq (sf : List ℚ → ℚ) (sd : List SRow) (b : List SRow)
    (renewRaw worldRaw : List MRow) (rNames wNames : List ColName) :
    build_features sf sd (Except.ok b) renewRaw worldRaw rNames wNames
      = (dropna (builderDerive sf (ffillDF (rowsToDF (ColName.base "saudi_production" :: ColName.base "brent_price" :: (rNames ++ wNames))
          (sortRows (mergeRows (mergeRows (mergeRows ((resampleFfill (dedupDates sd)).map (fun p => (p.1, [p.2]))) ((resampleMean b).map (fun p => (p.1, [p.2]))) 1) (groupSum rNames.length renewRaw) rNames.length) (groupSum wNames.length worldRaw) wNames.length))))), []) := rfl

/-- Unfolding of `build_features` when the Brent source fails. -/
theorem build_features_error_eq (sf : List ℚ → ℚ) (sd : List SRow) (e : String)
    (renewRaw worldRaw : List MRow) (rNames wNames : List ColName) :
    build_features sf sd (Except.error e) renewRaw worldRaw rNames wNames
      = (dropna (builderDerive sf (ffillDF (rowsToDF (ColName.base "saudi_production" :: ColName.base "brent_price" :: (rNames ++ wNames))
          (sortRows (mergeRows (mergeRows (mergeRows ((resampleFfill (dedupDates sd)).map (fun p => (p.1, [p.2]))) (((resampleFfill (dedupDates sd)).map (fun p => (p.1, (some 0 : Cell)))).map (fun p => (p.1, [p.2]))) 1) (groupSum rNames.length renewRaw) rNames.length) (groupSum wNames.length worldRaw) wNames.length))))), [brentWarning e]) := rfl

/-- C6 (invariants, build_features.py lines 168-196 and 100-101): for every
input dataset, the persisted feature matrix has no missing value in any cell
of any retained row, and its date column is the `some`-image of a strictly
increasing (hence duplicate-free) list of month indices, so the target
column never repeats a date. -/
theorem claim_C6 (sf : List ℚ → ℚ) (sd : List SRow)
    (brentRaw : Except String (List SRow)) (renewRaw worldRaw : List MRow)
    (rNames wNames : List ColName) :
    ((build_features sf sd brentRaw renewRaw worldRaw rNames wNames).1.all
      (fun p => p.2.all (fun x => x.isSome)) = true) ∧
    ∃ ks : List ℤ, ks.Pairwise (· < ·) ∧
      getColD (build_features sf sd brentRaw renewRaw worldRaw rNames wNames).1 ColName.date
        = ks.map (fun z : ℤ => (some ((z : ℚ)) : Cell)) := by
  cases brentRaw with
  | ok b =>
    rw [build_features_ok_eq]
    refine ⟨?_, ?_⟩
    · exact List.all_eq_true.mpr (fun p hp => List.all_eq_true.mpr
        (fun x hx => dropna_all_some _ p hp x hx))
    · obtain ⟨ks, h1, h2⟩ := builder_dates_core sf (resampleFfill (dedupDates sd))
        (resampleMean b) renewRaw worldRaw rNames wNames (resampleFfill_dates_lt _)
        ((resampleMean_dates_lt b).imp ne_of_lt)
      refine ⟨ks, h1, ?_⟩
      rw [← h2]
  | error e =>
    rw [build_features_error_eq]
    have hlt := resampleFfill_dates_lt (dedupDates sd)
    generalize hA : resampleFfill (dedupDates sd) = saudi2
    rw [hA] at hlt
    refine ⟨?_, ?_⟩
    · exact List.all_eq_true.mpr (fun p hp => List.all_eq_true.mpr
        (fun x hx => dropna_all_some _ p hp x hx))
    · obtain ⟨ks, h1, h2⟩ := builder_dates_core sf saudi2
        (saudi2.map (fun p => (p.1, (some 0 : Cell))))
        renewRaw worldRaw rNames wNames hlt
        (by rw [List.map_map]; exact hlt.imp ne_of_lt)
      refine ⟨ks, h1, ?_⟩
      rw [← h2]

end OilForecast
